import Mathlib

/-!
Verification of the Ench-re market simulation (Django app).

This file shallowly embeds the data model (`market/models.py`), the matching
engine (`market/engine.py`), the settlement logic (`simulation/manager.py`,
`simulation/agents.py`) and the weighted random selector (`core/utils.py`)
as executable Lean definitions, and proves or refutes the frozen claims
about them.

Modelling conventions:
- Django `Decimal` prices are modelled as `ℚ` (exact decimal arithmetic).
- Python integers are modelled as `ℤ` so that signedness claims are real.
- The database table of orders is a `List Order`; a Django `save()` of an
  existing row is `saveOrder` (replace the row with the same id).
- Django querysets are evaluated eagerly at the point the Python code
  iterates them.  Crucially, in `MarketEngine.match_orders` the
  `pending_orders` queryset is materialised once, at the start of the
  sweep, so the loop iterates over stale snapshots, while
  `_find_matching_orders` issues a fresh query each time.  The embedding
  reproduces exactly that: `sweepOrders` walks the stale snapshot list
  while threading the live database.
- `random.uniform` / `random.choice` draws are passed in as explicit
  parameters (`r`, `u`), making the selector a deterministic function of
  the draw.
- The in-memory `_order_books` cache maintained by `_update_order_book`
  is not part of the modelled state: it is write-only with respect to
  every operation the claims mention (`get_order_book` and the matcher
  always re-query the database).
-/

namespace EnchMarket

/-- Order side, from `market/models.py` (`OrderType`). -/
inductive OrderType where
  | BUY
  | SELL
deriving DecidableEq, Repr

/-- Order state, from `market/models.py` (`OrderStatus`). -/
inductive OrderStatus where
  | PENDING
  | PARTIAL
  | FILLED
  | CANCELLED
  | EXPIRED
deriving DecidableEq, Repr

/-- One row of the `Order` table (`market/models.py`).  `created_at` is the
value of the engine clock when the order was first saved. -/
structure Order where
  id : Nat
  item : Nat
  agent_id : String
  order_type : OrderType
  price : ℚ
  quantity : ℤ
  filled_quantity : ℤ
  status : OrderStatus
  created_at : Nat
deriving DecidableEq, Repr

/-- `Order.remaining_quantity` property: `quantity - filled_quantity`. -/
def Order.remaining_quantity (o : Order) : ℤ :=
  o.quantity - o.filled_quantity

/-- `Order.is_active` property: status in PENDING, PARTIAL. -/
def Order.is_active (o : Order) : Bool :=
  match o.status with
  | .PENDING => true
  | .PARTIAL => true
  | _ => false

/-- `Order.update_status`: re-derive the status from the filled quantity
(PENDING if 0, PARTIAL if below quantity, else FILLED). -/
def Order.update_status (o : Order) : Order :=
  if o.filled_quantity = 0 then { o with status := .PENDING }
  else if o.filled_quantity < o.quantity then { o with status := .PARTIAL }
  else { o with status := .FILLED }

/-- One row of the `Transaction` table (`market/models.py`).  The two order
references are stored by id (the FK columns). -/
structure Transaction where
  buyer_id : String
  seller_id : String
  item : Nat
  price : ℚ
  quantity : ℤ
  buy_order : Nat
  sell_order : Nat
deriving DecidableEq, Repr

/-- `Transaction.total_value` property: `price * quantity`. -/
def Transaction.total_value (t : Transaction) : ℚ :=
  t.price * (t.quantity : ℚ)

/-- The persistent state read and written by `MarketEngine`: the order and
transaction tables, the id sequence and the clock that stamps
`created_at`. -/
structure EngineState where
  orders : List Order
  transactions : List Transaction
  next_order_id : Nat
  now : Nat
deriving DecidableEq, Repr

/-- The fields an agent chooses when constructing an `Order(...)` before
submitting it; `filled_quantity`/`status` take the model defaults and
`id`/`created_at` are assigned on save. -/
structure NewOrderReq where
  item : Nat
  agent_id : String
  order_type : OrderType
  price : ℚ
  quantity : ℤ
deriving DecidableEq, Repr

/-- Saving an existing row: replace the row with the same primary key. -/
def saveOrder (db : List Order) (o : Order) : List Order :=
  db.map (fun r => if r.id = o.id then o else r)

/-- The opposite side computed at the top of `_find_matching_orders`. -/
def opposite (t : OrderType) : OrderType :=
  match t with
  | .BUY => .SELL
  | .SELL => .BUY

/-- The candidate filter of `_find_matching_orders`: same item, opposite
side, active status, not the same agent, and price-compatible with the
incoming order. -/
def candOk (new_order o : Order) : Bool :=
  decide (o.item = new_order.item) &&
  decide (o.order_type = opposite new_order.order_type) &&
  o.is_active &&
  !decide (o.agent_id = new_order.agent_id) &&
  (if new_order.order_type = OrderType.BUY then decide (o.price ≤ new_order.price)
   else decide (new_order.price ≤ o.price))

/-- `order_by('price', 'created_at')`: ascending price, ties by ascending
creation time. -/
def priceAscLE (a b : Order) : Prop :=
  a.price < b.price ∨ (a.price = b.price ∧ a.created_at ≤ b.created_at)

/-- `order_by('-price', 'created_at')`: descending price, ties by ascending
creation time. -/
def priceDescLE (a b : Order) : Prop :=
  b.price < a.price ∨ (a.price = b.price ∧ a.created_at ≤ b.created_at)

instance : DecidableRel priceAscLE := by
  intro a b; unfold priceAscLE; infer_instance

instance : DecidableRel priceDescLE := by
  intro a b; unfold priceDescLE; infer_instance

instance : IsTotal Order priceAscLE where
  total a b := by
    unfold priceAscLE
    rcases lt_trichotomy a.price b.price with h | h | h
    · exact Or.inl (Or.inl h)
    · rcases Nat.le_total a.created_at b.created_at with hc | hc
      · exact Or.inl (Or.inr ⟨h, hc⟩)
      · exact Or.inr (Or.inr ⟨h.symm, hc⟩)
    · exact Or.inr (Or.inl h)

instance : IsTrans Order priceAscLE where
  trans a b c hab hbc := by
    unfold priceAscLE at *
    rcases hab with h1 | ⟨h1, h1c⟩
    · rcases hbc with h2 | ⟨h2, _⟩
      · exact Or.inl (h1.trans h2)
      · exact Or.inl (h2 ▸ h1)
    · rcases hbc with h2 | ⟨h2, h2c⟩
      · exact Or.inl (h1 ▸ h2)
      · exact Or.inr ⟨h1.trans h2, h1c.trans h2c⟩

instance : IsTotal Order priceDescLE where
  total a b := by
    unfold priceDescLE
    rcases lt_trichotomy a.price b.price with h | h | h
    · exact Or.inr (Or.inl h)
    · rcases Nat.le_total a.created_at b.created_at with hc | hc
      · exact Or.inl (Or.inr ⟨h, hc⟩)
      · exact Or.inr (Or.inr ⟨h.symm, hc⟩)
    · exact Or.inl (Or.inl h)

instance : IsTrans Order priceDescLE where
  trans a b c hab hbc := by
    unfold priceDescLE at *
    rcases hab with h1 | ⟨h1, h1c⟩
    · rcases hbc with h2 | ⟨h2, _⟩
      · exact Or.inl (h2.trans h1)
      · exact Or.inl (h2 ▸ h1)
    · rcases hbc with h2 | ⟨h2, h2c⟩
      · exact Or.inl (h1.symm ▸ h2)
      · exact Or.inr ⟨h1.trans h2, h1c.trans h2c⟩

/-- `MarketEngine._find_matching_orders`: filter the live table by the
candidate conditions, then sort ascending price / ascending time for an
incoming BUY and descending price / ascending time for an incoming SELL. -/
def find_matching_orders (db : List Order) (new_order : Order) : List Order :=
  let flt := db.filter (candOk new_order)
  if new_order.order_type = OrderType.BUY then List.insertionSort priceAscLE flt
  else List.insertionSort priceDescLE flt

/-- Result of `_execute_matches`: the updated table, the updated in-memory
incoming order object, and the transactions created. -/
structure ExecResult where
  db : List Order
  new_order : Order
  txs : List Transaction
deriving DecidableEq, Repr

/-- The loop body of `MarketEngine._execute_matches`.  `remaining_quantity`
is the local Python variable, initialised from the (possibly stale)
incoming order object and decremented per trade; a non-positive value
breaks out of the loop.  Each pairing trades
`min(remaining, candidate.remaining)` at the candidate's price, increments
the two in-memory objects' filled quantities, re-derives both statuses and
saves both rows. -/
def execute_matches_go (db : List Order) (new_order : Order)
    (remaining_quantity : ℤ) (cands : List Order) (acc : List Transaction) :
    ExecResult :=
  match cands with
  | [] => ⟨db, new_order, acc⟩
  | m :: rest =>
    if remaining_quantity ≤ 0 then ⟨db, new_order, acc⟩
    else
      let trade_quantity := min remaining_quantity m.remaining_quantity
      let execution_price := m.price
      let tx : Transaction :=
        if new_order.order_type = OrderType.BUY then
          ⟨new_order.agent_id, m.agent_id, new_order.item, execution_price,
            trade_quantity, new_order.id, m.id⟩
        else
          ⟨m.agent_id, new_order.agent_id, new_order.item, execution_price,
            trade_quantity, m.id, new_order.id⟩
      let new_order' :=
        Order.update_status
          { new_order with filled_quantity := new_order.filled_quantity + trade_quantity }
      let m' :=
        Order.update_status
          { m with filled_quantity := m.filled_quantity + trade_quantity }
      let db' := saveOrder (saveOrder db new_order') m'
      execute_matches_go db' new_order' (remaining_quantity - trade_quantity) rest
        (acc ++ [tx])

/-- `MarketEngine._execute_matches`. -/
def execute_matches (db : List Order) (new_order : Order) (cands : List Order) :
    ExecResult :=
  execute_matches_go db new_order new_order.remaining_quantity cands []

/-- `MarketEngine.submit_order`: save the new order (model defaults
`filled_quantity = 0`, `status = PENDING`; `id` and `created_at` assigned
on save), find matching orders, and execute the matches when there are
any.  Returns the new state and the in-memory order object the Python
method returns. -/
def submit_order (s : EngineState) (req : NewOrderReq) : EngineState × Order :=
  let o : Order :=
    ⟨s.next_order_id, req.item, req.agent_id, req.order_type, req.price,
      req.quantity, 0, .PENDING, s.now⟩
  let db := s.orders ++ [o]
  let cands := find_matching_orders db o
  if cands.isEmpty then
    (⟨db, s.transactions, s.next_order_id + 1, s.now + 1⟩, o)
  else
    let r := execute_matches db o cands
    (⟨r.db, s.transactions ++ r.txs, s.next_order_id + 1, s.now + 1⟩, r.new_order)

/-- `created_at` ordering used by the sweep's `order_by('created_at')`. -/
def createdLE (a b : Order) : Prop :=
  a.created_at ≤ b.created_at

instance : DecidableRel createdLE := by
  intro a b; unfold createdLE; infer_instance

instance : IsTotal Order createdLE where
  total a b := Nat.le_total a.created_at b.created_at

instance : IsTrans Order createdLE where
  trans _ _ _ hab hbc := Nat.le_trans hab hbc

/-- The loop of `MarketEngine.match_orders`.  `stale` is the list of order
objects materialised by the `pending_orders` queryset at the start of the
sweep; `db` is the live table.  For each stale object that is (statically)
active with positive remaining quantity, a fresh candidate query runs
against the live table and, when it is non-empty, the matches execute with
the stale object as the incoming order. -/
def sweepOrders (db : List Order) (acc : List Transaction) :
    List Order → List Order × List Transaction
  | [] => (db, acc)
  | o :: rest =>
    if o.is_active && decide (0 < o.remaining_quantity) then
      let cands := find_matching_orders db o
      if cands.isEmpty then sweepOrders db acc rest
      else
        let r := execute_matches db o cands
        sweepOrders r.db (acc ++ r.txs) rest
    else sweepOrders db acc rest

/-- `MarketEngine.match_orders`: materialise all active orders sorted by
creation time, then sweep them against the live table. -/
def match_orders (s : EngineState) : EngineState × List Transaction :=
  let pending := List.insertionSort createdLE (s.orders.filter Order.is_active)
  let res := sweepOrders s.orders [] pending
  (⟨res.1, s.transactions ++ res.2, s.next_order_id, s.now⟩, res.2)

/-- `MarketEngine.cancel_order`: look up the order by id and owning agent;
when found and active set its status to CANCELLED and return true, in
every other case return false and leave the tables unchanged. -/
def cancel_order (s : EngineState) (order_id : Nat) (agent_id : String) :
    EngineState × Bool :=
  match s.orders.find? (fun o => decide (o.id = order_id) && decide (o.agent_id = agent_id)) with
  | none => (s, false)
  | some o =>
    if o.is_active then
      (⟨saveOrder s.orders { o with status := .CANCELLED }, s.transactions,
        s.next_order_id, s.now⟩, true)
    else (s, false)

/-- One entry of `get_order_book`'s output (`_order_to_dict`). -/
structure BookEntry where
  id : Nat
  price : ℚ
  quantity : ℤ
  total : ℚ
  created_at : Nat
deriving DecidableEq, Repr

/-- `MarketEngine._order_to_dict`: expose the remaining quantity and the
notional total `price * remaining`. -/
def order_to_dict (o : Order) : BookEntry :=
  ⟨o.id, o.price, o.remaining_quantity,
    o.price * (o.remaining_quantity : ℚ), o.created_at⟩

/-- Output of `get_order_book`. -/
structure OrderBook where
  buy_orders : List BookEntry
  sell_orders : List BookEntry
deriving DecidableEq, Repr

/-- Membership predicate for one side of the book query in
`get_order_book`. -/
def bookSideOk (item : Nat) (side : OrderType) (o : Order) : Bool :=
  decide (o.item = item) && decide (o.order_type = side) && o.is_active

/-- `MarketEngine.get_order_book`: active buy orders of the item sorted by
descending price then ascending creation time, active sell orders sorted
by ascending price then ascending creation time, each converted by
`_order_to_dict`. -/
def get_order_book (s : EngineState) (item : Nat) : OrderBook :=
  let buys := List.insertionSort priceDescLE
    (s.orders.filter (bookSideOk item OrderType.BUY))
  let sells := List.insertionSort priceAscLE
    (s.orders.filter (bookSideOk item OrderType.SELL))
  ⟨buys.map order_to_dict, sells.map order_to_dict⟩

/-- An agent's mutable economic state (`simulation/agents.py`, class
`Agent`).  The inventory is a Python dict `item_id -> quantity`, modelled
as an insertion-ordered association list. -/
structure Agent where
  id : String
  cash : ℚ
  inventory : List (Nat × ℤ)
deriving DecidableEq, Repr

/-- Python `dict.get(item_id, 0)` on the inventory. -/
def invGet (inv : List (Nat × ℤ)) (k : Nat) : ℤ :=
  match inv.find? (fun e => decide (e.1 = k)) with
  | some e => e.2
  | none => 0

/-- Deleting a key from the inventory dict. -/
def invDel (inv : List (Nat × ℤ)) (k : Nat) : List (Nat × ℤ) :=
  inv.filter (fun e => !decide (e.1 = k))

/-- Updating the value stored under a present key. -/
def invSet (inv : List (Nat × ℤ)) (k : Nat) (v : ℤ) : List (Nat × ℤ) :=
  inv.map (fun e => if e.1 = k then (k, v) else e)

/-- Whether the inventory dict has the key. -/
def invHas (inv : List (Nat × ℤ)) (k : Nat) : Bool :=
  (inv.find? (fun e => decide (e.1 = k))).isSome

/-- `Agent.get_item_quantity`. -/
def Agent.get_item_quantity (a : Agent) (item_id : Nat) : ℤ :=
  invGet a.inventory item_id

/-- `Agent.add_item`: create the entry at zero when absent, then add the
quantity. -/
def Agent.add_item (a : Agent) (item_id : Nat) (quantity : ℤ) : Agent :=
  if invHas a.inventory item_id then
    { a with inventory := invSet a.inventory item_id (invGet a.inventory item_id + quantity) }
  else
    { a with inventory := a.inventory ++ [(item_id, quantity)] }

/-- `Agent.remove_item`: when the held quantity covers the request,
decrement it (deleting the entry at zero) and report true; otherwise leave
the inventory untouched and report false.  For the positive quantities
settlement passes this matches the Python exactly; a non-positive request
against an absent key would raise KeyError in Python and never occurs. -/
def Agent.remove_item (a : Agent) (item_id : Nat) (quantity : ℤ) : Agent × Bool :=
  if quantity ≤ a.get_item_quantity item_id then
    let v := invGet a.inventory item_id - quantity
    if v = 0 then ({ a with inventory := invDel a.inventory item_id }, true)
    else ({ a with inventory := invSet a.inventory item_id v }, true)
  else (a, false)

/-- `Agent.update_cash`. -/
def Agent.update_cash (a : Agent) (amount : ℚ) : Agent :=
  { a with cash := a.cash + amount }

/-- `SimulationManager._find_agent` returns the first agent with the id;
settlement then mutates that object in place.  `updateFirstAgent` applies
`f` to the first agent with the id and is the identity when no agent
matches (the `if buyer:` / `if seller:` guards). -/
def updateFirstAgent (agents : List Agent) (aid : String) (f : Agent → Agent) :
    List Agent :=
  match agents with
  | [] => []
  | a :: rest =>
    if a.id = aid then f a :: rest
    else a :: updateFirstAgent rest aid f

/-- The per-transaction body of
`SimulationManager._update_agents_after_transactions`: the buyer gains the
item quantity and pays `total_value`; the seller loses the item quantity
(via `remove_item`) and receives `total_value`. -/
def settle_tx (agents : List Agent) (t : Transaction) : List Agent :=
  let agents1 := updateFirstAgent agents t.buyer_id
    (fun b => (b.add_item t.item t.quantity).update_cash (-t.total_value))
  updateFirstAgent agents1 t.seller_id
    (fun sl => ((sl.remove_item t.item t.quantity).1).update_cash t.total_value)

/-- `SimulationManager._update_agents_after_transactions`: settle each
transaction in order. -/
def update_agents_after_transactions (agents : List Agent) (txs : List Transaction) :
    List Agent :=
  txs.foldl settle_tx agents

/-- The scan loop of `weighted_random_choice` (`core/utils.py`): walk the
choices accumulating weight and return the first value whose cumulative
weight reaches the draw `r`; when the loop falls through, Python returns
`choices[-1][0]`, the last value of the original list `choices0`. -/
def wscan {α : Type} (choices0 : List (α × ℚ)) (r : ℚ) :
    ℚ → List (α × ℚ) → Option α
  | _, [] => (choices0.getLast?).map Prod.fst
  | cumulative, (value, weight) :: rest =>
    if r ≤ cumulative + weight then some value
    else wscan choices0 r (cumulative + weight) rest

/-- `weighted_random_choice` (`core/utils.py`), deterministic in the
random draws: `r` is the value `random.uniform(0, total_weight)` would
return, and `u` selects the index `random.choice` would pick in the
non-positive-total fallback.  Empty input yields `none`. -/
def weighted_random_choice {α : Type} (choices : List (α × ℚ)) (r : ℚ) (u : Nat) :
    Option α :=
  match choices with
  | [] => none
  | _ :: _ =>
    let total_weight := (choices.map Prod.snd).sum
    if total_weight ≤ 0 then (choices.map Prod.fst).get? (u % choices.length)
    else wscan choices r 0 choices

/-! Specification-side definitions used to state the claims. -/

/-- The status function of (filled, quantity) described in spec section 3:
PENDING at zero filled, PARTIAL strictly between, FILLED at full quantity.
It is exactly the assignment `Order.update_status` performs. -/
def derivedStatus (filled quantity : ℤ) : OrderStatus :=
  if filled = 0 then .PENDING
  else if filled < quantity then .PARTIAL
  else .FILLED

/-- Well-formedness of a single order row: positive requested quantity,
filled quantity within bounds, and a status that is either one of the two
explicitly set terminal states or the derived function of
(filled, quantity). -/
def OrderInv (o : Order) : Prop :=
  1 ≤ o.quantity ∧ 0 ≤ o.filled_quantity ∧ o.filled_quantity ≤ o.quantity ∧
    (o.status = .CANCELLED ∨ o.status = .EXPIRED ∨
      o.status = derivedStatus o.filled_quantity o.quantity)

instance (o : Order) : Decidable (OrderInv o) := by
  unfold OrderInv; infer_instance

/-- Well-formedness of the order table: primary keys are unique and every
row satisfies `OrderInv`. -/
def WellFormed (s : EngineState) : Prop :=
  (s.orders.map Order.id).Nodup ∧ ∀ o ∈ s.orders, OrderInv o

instance (s : EngineState) : Decidable (WellFormed s) := by
  unfold WellFormed; infer_instance

/-- A mutually price-compatible pairing: same item, opposite sides,
distinct owners, and the sell price not above the buy price. -/
def compatPair (x y : Order) : Prop :=
  x.item = y.item ∧ x.order_type = .BUY ∧ y.order_type = .SELL ∧
    x.agent_id ≠ y.agent_id ∧ y.price ≤ x.price

instance (x y : Order) : Decidable (compatPair x y) := by
  unfold compatPair; infer_instance

/-- No two active orders of the table form a mutually price-compatible
pairing. -/
def noCompatPair (db : List Order) : Prop :=
  ∀ x ∈ db, ∀ y ∈ db, x.is_active = true → y.is_active = true → ¬ compatPair x y

/-- The immutable columns of an order row: everything except
`filled_quantity` and `status`, which are the only fields the engine ever
rewrites on a saved row. -/
def Order.core (o : Order) : Nat × Nat × String × OrderType × ℚ × Nat :=
  (o.id, o.item, o.agent_id, o.order_type, o.price, o.created_at)

/-- Engine states reachable through the engine's operations, with orders
submitted the way every agent builds them (`_create_buy_order` /
`_create_sell_order` never emit a non-positive quantity): fresh orders
with the model defaults and a positive requested quantity. -/
inductive Reachable : EngineState → Prop where
  | init : Reachable ⟨[], [], 0, 0⟩
  | submit (s : EngineState) (req : NewOrderReq) :
      Reachable s → 1 ≤ req.quantity → Reachable (submit_order s req).1
  | sweep (s : EngineState) : Reachable s → Reachable (match_orders s).1
  | cancel (s : EngineState) (oid : Nat) (aid : String) :
      Reachable s → Reachable (cancel_order s oid aid).1

/-- Modelled from the spec: the selection rule of the Weighted Random
Selector, stated in the spec's words — scan the candidates accumulating
weight and return the first whose cumulative weight reaches the draw `r`;
no candidate qualifies yields none. -/
def specFirstCumGe {α : Type} (r : ℚ) : ℚ → List (α × ℚ) → Option α
  | _, [] => none
  | cum, (value, weight) :: rest =>
    if r ≤ cum + weight then some value else specFirstCumGe r (cum + weight) rest

/-! Theorems about the claims. -/

/-- The code's scan agrees with the spec's "first candidate whose
cumulative weight reaches r" rule, and such a candidate exists, whenever
the draw is at most the cumulative weight of the remaining candidates. -/
theorem wscan_eq_specFirstCumGe {α : Type} (cs0 : List (α × ℚ)) (r : ℚ) :
    ∀ (cs : List (α × ℚ)) (cum : ℚ), cs ≠ [] →
      r ≤ cum + (cs.map Prod.snd).sum →
      wscan cs0 r cum cs = specFirstCumGe r cum cs ∧
        (specFirstCumGe r cum cs).isSome = true := by
  intro cs
  induction cs with
  | nil => intro cum h; exact absurd rfl h
  | cons hd rest ih =>
    intro cum _ hbound
    obtain ⟨value, weight⟩ := hd
    by_cases hr : r ≤ cum + weight
    · constructor
      · simp [wscan, specFirstCumGe, hr]
      · simp [specFirstCumGe, hr]
    · have hrest : rest ≠ [] := by
        intro hnil
        subst hnil
        simp at hbound
        exact hr (by linarith)
      have hbound' : r ≤ (cum + weight) + (rest.map Prod.snd).sum := by
        simp at hbound
        linarith
      have := ih (cum + weight) hrest hbound'
      constructor
      · simpa [wscan, specFirstCumGe, hr] using this.1
      · simpa [specFirstCumGe, hr] using this.2

/-- C9: the weighted random selector returns none for empty input; with a
non-positive total weight it falls back to a uniform index choice over the
candidate values; otherwise, for a draw r in the interval from 0 to the
total weight, it returns the first candidate whose cumulative weight
reaches r (which exists); in particular on candidates (A,3),(B,1) the draw
r = 0 yields A and r = 3.5 yields B. -/
theorem weighted_random_choice_spec {α : Type} (choices : List (α × ℚ)) (r : ℚ) (u : Nat) :
    (weighted_random_choice ([] : List (α × ℚ)) r u = none)
  ∧ (choices ≠ [] → (choices.map Prod.snd).sum ≤ 0 →
      ∃ v ∈ choices.map Prod.fst, weighted_random_choice choices r u = some v)
  ∧ (0 ≤ r → r < (choices.map Prod.snd).sum →
      weighted_random_choice choices r u = specFirstCumGe r 0 choices ∧
        (specFirstCumGe r 0 choices).isSome = true)
  ∧ weighted_random_choice [("A", (3 : ℚ)), ("B", 1)] 0 0 = some "A"
  ∧ weighted_random_choice [("A", (3 : ℚ)), ("B", 1)] (7 / 2) 0 = some "B" := by
  refine ⟨rfl, ?_, ?_, by norm_num [weighted_random_choice, wscan],
    by norm_num [weighted_random_choice, wscan]⟩
  · intro hne hnp
    match choices with
    | [] => exact absurd rfl hne
    | c :: cs =>
      have hlt : u % (c :: cs).length < ((c :: cs).map Prod.fst).length := by
        simp [Nat.mod_lt]
      refine ⟨((c :: cs).map Prod.fst).get ⟨u % (c :: cs).length, hlt⟩,
        by apply List.get_mem, ?_⟩
      show (if ((c :: cs).map Prod.snd).sum ≤ 0 then
          ((c :: cs).map Prod.fst).get? (u % (c :: cs).length)
        else wscan (c :: cs) r 0 (c :: cs)) = _
      rw [if_pos hnp, List.get?_eq_get hlt]
  · intro hr0 hrlt
    match choices with
    | [] => simp at hrlt; linarith
    | c :: cs =>
      have hpos : ¬ ((c :: cs).map Prod.snd).sum ≤ 0 := by
        intro h; linarith
      have hb : r ≤ 0 + ((c :: cs).map Prod.snd).sum := by linarith
      have hstep := wscan_eq_specFirstCumGe (c :: cs) r (c :: cs) 0 (by simp) hb
      have hgoal : weighted_random_choice (c :: cs) r u = wscan (c :: cs) r 0 (c :: cs) := by
        show (if ((c :: cs).map Prod.snd).sum ≤ 0 then
            ((c :: cs).map Prod.fst).get? (u % (c :: cs).length)
          else wscan (c :: cs) r 0 (c :: cs)) = _
        rw [if_neg hpos]
      rw [hgoal]
      exact hstep

/-- Witness for C9: concrete applications with every hypothesis
discharged — the positive-total scan rule at r = 1 on (A,3),(B,1), and the
uniform fallback on all-zero weights. -/
theorem weighted_random_choice_spec_witness :
    (weighted_random_choice [("A", (3 : ℚ)), ("B", 1)] 1 0 =
        specFirstCumGe 1 0 [("A", (3 : ℚ)), ("B", 1)])
  ∧ (∃ v ∈ ["Z", "W"], weighted_random_choice [("Z", (0 : ℚ)), ("W", 0)] 0 1 = some v) := by
  constructor
  · exact ((weighted_random_choice_spec [("A", (3 : ℚ)), ("B", 1)] 1 0).2.2.1
      (by norm_num) (by norm_num)).1
  · have := (weighted_random_choice_spec [("Z", (0 : ℚ)), ("W", 0)] 0 1).2.1
      (by simp) (by norm_num)
    simpa using this

/-- Three directly persisted pending orders (as the repository's tests and
admin interface create them): a BUY of 5 at 10 by A, a SELL of 10 at 10 by
B, a BUY of 10 at 10 by C, in creation order. -/
def c1_state : EngineState :=
  ⟨[⟨1, 1, "A", .BUY, 10, 5, 0, .PENDING, 1⟩,
    ⟨2, 1, "B", .SELL, 10, 10, 0, .PENDING, 2⟩,
    ⟨3, 1, "C", .BUY, 10, 10, 0, .PENDING, 3⟩], [], 4, 4⟩

/-- C1 fails on the code: `match_orders` iterates stale snapshots taken at
the start of the sweep, so after order 1 buys 5 of order 2 (first
transaction), order 2 is processed as an incoming order with its stale
remaining quantity of 10 even though its live remaining quantity is 5, and
a second transaction of quantity 10 is created against order 3.  Selling
order 2 thus trades 15 units in total against a requested quantity of 10,
and its filled quantity rises by only 5 during the second match — the
second transaction's quantity is neither min(5, 10) nor the increment
applied to both orders. -/
theorem match_orders_sweep_overfills :
    ((match_orders c1_state).2.map (fun t => (t.buy_order, t.sell_order, t.quantity))) =
      [(1, 2, 5), (3, 2, 10)]
  ∧ ((match_orders c1_state).1.orders.map (fun o => (o.id, o.quantity, o.filled_quantity))) =
      [(1, 5, 5), (2, 10, 10), (3, 10, 10)]
  ∧ (((match_orders c1_state).2.filter (fun t => t.sell_order == 2)).map
      Transaction.quantity).sum = 15 := by
  norm_num [match_orders, sweepOrders, execute_matches, execute_matches_go,
    find_matching_orders, candOk, saveOrder, Order.is_active, Order.remaining_quantity,
    Order.update_status, opposite, priceAscLE, priceDescLE, createdLE, c1_state]
  decide

/-- One resting BUY of 3 at price 5 by agent A. -/
def c5_state : EngineState :=
  ⟨[⟨1, 1, "A", .BUY, 5, 3, 0, .PENDING, 0⟩], [], 2, 1⟩

/-- C5 fails on the code: `submit_order` performs no validity check at all
(the model's `MinValueValidator`s never run on `save()`, and
`InvalidOrderException` is never raised), so a SELL order with price 0 is
persisted, reaches the matcher, trades in full against the resting BUY and
ends FILLED. -/
theorem submit_order_accepts_invalid_order :
    ((submit_order c5_state ⟨1, "B", .SELL, 0, 3⟩).1.transactions =
      [⟨"A", "B", 1, 5, 3, 1, 2⟩])
  ∧ (submit_order c5_state ⟨1, "B", .SELL, 0, 3⟩).2.price = 0
  ∧ (submit_order c5_state ⟨1, "B", .SELL, 0, 3⟩).2.status = .FILLED
  ∧ (∃ o ∈ (submit_order c5_state ⟨1, "B", .SELL, 0, 3⟩).1.orders,
      o.id = 2 ∧ o.price = 0 ∧ o.filled_quantity = 3) := by
  norm_num [submit_order, execute_matches, execute_matches_go,
    find_matching_orders, candOk, saveOrder, Order.is_active, Order.remaining_quantity,
    Order.update_status, opposite, priceAscLE, priceDescLE, c5_state]
  decide

/-- Looking a row up by primary key. -/
def rowById (db : List Order) (i : Nat) : Option Order :=
  db.find? (fun r => decide (r.id = i))

/-- Saving a row does not touch rows with a different id. -/
theorem rowById_saveOrder_ne (db : List Order) (o : Order) (j : Nat) (h : j ≠ o.id) :
    rowById (saveOrder db o) j = rowById db j := by
  induction db with
  | nil => rfl
  | cons r rest ih =>
    show List.find? _ ((if r.id = o.id then o else r) :: saveOrder rest o) =
      List.find? _ (r :: rest)
    by_cases hr : r.id = o.id
    · rw [if_pos hr]
      rw [List.find?_cons_of_neg _ (by simp; exact fun hh => h hh.symm),
        List.find?_cons_of_neg _ (by simp [hr]; exact fun hh => h hh.symm)]
      exact ih
    · rw [if_neg hr]
      by_cases hrj : r.id = j
      · rw [List.find?_cons_of_pos _ (by simp [hrj]),
          List.find?_cons_of_pos _ (by simp [hrj])]
      · rw [List.find?_cons_of_neg _ (by simp [hrj]),
          List.find?_cons_of_neg _ (by simp [hrj])]
        exact ih

/-- Saving a row whose id is present replaces that row. -/
theorem rowById_saveOrder_self (db : List Order) (o : Order)
    (h : ∃ r ∈ db, r.id = o.id) :
    rowById (saveOrder db o) o.id = some o := by
  induction db with
  | nil => simp at h
  | cons r rest ih =>
    show List.find? _ ((if r.id = o.id then o else r) :: saveOrder rest o) = some o
    by_cases hr : r.id = o.id
    · rw [if_pos hr, List.find?_cons_of_pos _ (by simp)]
    · obtain ⟨w, hw, hwid⟩ := h
      rcases List.mem_cons.mp hw with hhead | htail
      · exact absurd (hhead ▸ hwid) hr
      · rw [if_neg hr, List.find?_cons_of_neg _ (by simp [hr])]
        exact ih ⟨w, htail, hwid⟩

/-- Saving a row never changes the list of primary keys. -/
theorem saveOrder_map_id (db : List Order) (o : Order) :
    (saveOrder db o).map Order.id = db.map Order.id := by
  unfold saveOrder
  rw [List.map_map]
  apply List.map_congr_left
  intro r _
  by_cases hr : r.id = o.id
  · simp [hr]
  · simp [hr]

/-- The boolean result of `cancel_order`: true exactly when an order with
the id exists, belongs to the agent and is active. -/
theorem cancel_order_ret_iff (s : EngineState) (oid : Nat) (aid : String)
    (hids : (s.orders.map Order.id).Nodup) :
    (cancel_order s oid aid).2 = true ↔
      ∃ o ∈ s.orders, o.id = oid ∧ o.agent_id = aid ∧ o.is_active = true := by
  classical
  cases hfind : s.orders.find? (fun o => decide (o.id = oid) && decide (o.agent_id = aid)) with
  | none =>
    have hres : cancel_order s oid aid = (s, false) := by
      simp [cancel_order, hfind]
    rw [hres]
    simp only [Bool.false_eq_true, false_iff]
    rintro ⟨o, ho, h1, h2, _⟩
    have := List.find?_eq_none.mp hfind o ho
    simp [h1, h2] at this
  | some o =>
    have homem : o ∈ s.orders := List.mem_of_find?_eq_some hfind
    have hoprop : o.id = oid ∧ o.agent_id = aid := by
      have := List.find?_some hfind
      simpa using this
    by_cases hact : o.is_active = true
    · have hres : (cancel_order s oid aid).2 = true := by
        simp [cancel_order, hfind, hact]
      rw [hres]
      simp only [true_iff]
      exact ⟨o, homem, hoprop.1, hoprop.2, hact⟩
    · have hres : cancel_order s oid aid = (s, false) := by
        simp [cancel_order, hfind, hact]
      rw [hres]
      simp only [Bool.false_eq_true, false_iff]
      rintro ⟨o', ho', hid', hag', hact'⟩
      have : o' = o :=
        List.inj_on_of_nodup_map hids ho' homem (by rw [hid', hoprop.1])
      rw [this] at hact'
      exact absurd hact' hact

/-- A false `cancel_order` leaves the state untouched. -/
theorem cancel_order_false_state (s : EngineState) (oid : Nat) (aid : String)
    (h : (cancel_order s oid aid).2 = false) : (cancel_order s oid aid).1 = s := by
  classical
  cases hfind : s.orders.find? (fun o => decide (o.id = oid) && decide (o.agent_id = aid)) with
  | none => simp [cancel_order, hfind]
  | some o =>
    by_cases hact : o.is_active = true
    · exfalso
      have : (cancel_order s oid aid).2 = true := by simp [cancel_order, hfind, hact]
      rw [h] at this
      exact Bool.false_ne_true this
    · simp [cancel_order, hfind, hact]

/-- A true `cancel_order` rewrites exactly the cancelled row. -/
theorem cancel_order_true_state (s : EngineState) (oid : Nat) (aid : String)
    (h : (cancel_order s oid aid).2 = true) :
    ∃ o ∈ s.orders, o.id = oid ∧ o.agent_id = aid ∧ o.is_active = true ∧
      (cancel_order s oid aid).1 =
        ⟨saveOrder s.orders { o with status := .CANCELLED }, s.transactions,
          s.next_order_id, s.now⟩ := by
  classical
  cases hfind : s.orders.find? (fun o => decide (o.id = oid) && decide (o.agent_id = aid)) with
  | none =>
    exfalso
    have : (cancel_order s oid aid).2 = false := by simp [cancel_order, hfind]
    rw [h] at this
    simp at this
  | some o =>
    have homem : o ∈ s.orders := List.mem_of_find?_eq_some hfind
    have hoprop : o.id = oid ∧ o.agent_id = aid := by
      have := List.find?_some hfind
      simpa using this
    by_cases hact : o.is_active = true
    · exact ⟨o, homem, hoprop.1, hoprop.2, hact, by simp [cancel_order, hfind, hact]⟩
    · exfalso
      have : (cancel_order s oid aid).2 = false := by simp [cancel_order, hfind, hact]
      rw [h] at this
      simp at this

/-- C6: `cancel_order` succeeds exactly when an order with the id exists,
is owned by the requesting agent and is active, in which case the order's
status becomes CANCELLED and no other row changes; in every failure case
(missing id, wrong owner, inactive order) it returns false with the state
untouched, and in particular a second cancel of a cancelled order returns
false and changes nothing. -/
theorem cancel_order_spec (s : EngineState) (oid : Nat) (aid : String)
    (hids : (s.orders.map Order.id).Nodup) :
    (((cancel_order s oid aid).2 = true) ↔
      ∃ o ∈ s.orders, o.id = oid ∧ o.agent_id = aid ∧ o.is_active = true)
  ∧ ((cancel_order s oid aid).2 = false → (cancel_order s oid aid).1 = s)
  ∧ ((cancel_order s oid aid).2 = true →
      (rowById (cancel_order s oid aid).1.orders oid).map Order.status =
        some OrderStatus.CANCELLED)
  ∧ ((cancel_order s oid aid).2 = true → ∀ j, j ≠ oid →
      rowById (cancel_order s oid aid).1.orders j = rowById s.orders j)
  ∧ (cancel_order s oid aid).1.transactions = s.transactions
  ∧ ((cancel_order s oid aid).2 = true →
      cancel_order (cancel_order s oid aid).1 oid aid =
        ((cancel_order s oid aid).1, false)) := by
  classical
  refine ⟨cancel_order_ret_iff s oid aid hids, cancel_order_false_state s oid aid, ?_, ?_, ?_, ?_⟩
  · intro hb
    obtain ⟨o, homem, hid, hag, hact, hstate⟩ := cancel_order_true_state s oid aid hb
    rw [hstate, ← hid]
    have h2 := rowById_saveOrder_self s.orders { o with status := .CANCELLED } ⟨o, homem, rfl⟩
    rw [show ({ o with status := OrderStatus.CANCELLED } : Order).id = o.id from rfl] at h2
    rw [h2]
    rfl
  · intro hb j hj
    obtain ⟨o, homem, hid, hag, hact, hstate⟩ := cancel_order_true_state s oid aid hb
    rw [hstate]
    exact rowById_saveOrder_ne s.orders _ j (by simpa [hid] using hj)
  · cases hb : (cancel_order s oid aid).2 with
    | false => rw [cancel_order_false_state s oid aid hb]
    | true =>
      obtain ⟨o, homem, hid, hag, hact, hstate⟩ := cancel_order_true_state s oid aid hb
      rw [hstate]
  · intro hb
    obtain ⟨o, homem, hid, hag, hact, hstate⟩ := cancel_order_true_state s oid aid hb
    set s1 := (cancel_order s oid aid).1 with hs1
    have hids1 : (s1.orders.map Order.id).Nodup := by
      rw [hstate]
      simpa [saveOrder_map_id] using hids
    have hnosucc : ¬ ∃ o' ∈ s1.orders, o'.id = oid ∧ o'.agent_id = aid ∧
        o'.is_active = true := by
      rintro ⟨o', ho', hid', hag', hact'⟩
      rw [hstate] at ho'
      simp only [saveOrder, List.mem_map] at ho'
      obtain ⟨r0, hr0, hr0eq⟩ := ho'
      by_cases hc : r0.id = o.id
      · rw [← hr0eq] at hact'
        simp only [if_pos hc] at hact'
        simp [Order.is_active] at hact'
      · rw [← hr0eq] at hid'
        simp only [if_neg hc] at hid'
        exact hc (List.inj_on_of_nodup_map hids hr0 homem (by rw [hid', hid]) ▸ rfl)
    have hret2 : (cancel_order s1 oid aid).2 = false := by
      cases hb2 : (cancel_order s1 oid aid).2 with
      | false => rfl
      | true =>
        exact absurd ((cancel_order_ret_iff s1 oid aid hids1).mp hb2) hnosucc
    have hst2 : (cancel_order s1 oid aid).1 = s1 := cancel_order_false_state s1 oid aid hret2
    exact Prod.ext hst2 hret2

/-- Witness for C6: in a one-order book, cancelling by the owner succeeds
and a second cancel returns false leaving the state unchanged. -/
theorem cancel_order_spec_witness :
    cancel_order (cancel_order ⟨[⟨1, 1, "A", .BUY, 10, 5, 0, .PENDING, 0⟩], [], 2, 1⟩ 1 "A").1
        1 "A" =
      ((cancel_order ⟨[⟨1, 1, "A", .BUY, 10, 5, 0, .PENDING, 0⟩], [], 2, 1⟩ 1 "A").1, false) := by
  have h := cancel_order_spec ⟨[⟨1, 1, "A", .BUY, 10, 5, 0, .PENDING, 0⟩], [], 2, 1⟩ 1 "A"
    (by decide)
  apply h.2.2.2.2.2
  decide

/-- C3: the matcher's candidate set is exactly the active opposite-side
orders on the same item owned by a different agent whose price is
compatible with the incoming order, and it is consumed sorted by ascending
price then ascending creation time for an incoming BUY and by descending
price then ascending creation time for an incoming SELL. -/
theorem find_matching_orders_spec (db : List Order) (new_order : Order) :
    (∀ c, c ∈ find_matching_orders db new_order ↔
      (c ∈ db ∧ c.item = new_order.item ∧ c.order_type = opposite new_order.order_type ∧
        c.is_active = true ∧ c.agent_id ≠ new_order.agent_id ∧
        (new_order.order_type = .BUY → c.price ≤ new_order.price) ∧
        (new_order.order_type = .SELL → new_order.price ≤ c.price)))
  ∧ (new_order.order_type = .BUY →
      (find_matching_orders db new_order).Sorted
        (fun a b => a.price < b.price ∨ (a.price = b.price ∧ a.created_at ≤ b.created_at)))
  ∧ (new_order.order_type = .SELL →
      (find_matching_orders db new_order).Sorted
        (fun a b => b.price < a.price ∨ (a.price = b.price ∧ a.created_at ≤ b.created_at))) := by
  refine ⟨?_, ?_, ?_⟩
  · intro c
    unfold find_matching_orders candOk
    by_cases hbt : new_order.order_type = OrderType.BUY
    · simp only [hbt, if_pos, if_true, List.mem_insertionSort, List.mem_filter]
      simp [hbt]
      tauto
    · have hst : new_order.order_type = OrderType.SELL := by
        cases h : new_order.order_type
        · exact absurd h hbt
        · rfl
      simp only [if_neg hbt, List.mem_insertionSort, List.mem_filter]
      simp [hst]
      tauto
  · intro hbt
    unfold find_matching_orders
    rw [if_pos hbt]
    exact List.sorted_insertionSort priceAscLE _
  · intro hst
    have hbt : ¬ new_order.order_type = OrderType.BUY := by simp [hst]
    unfold find_matching_orders
    rw [if_neg hbt]
    exact List.sorted_insertionSort priceDescLE _

/-- Witness for C3: for a concrete incoming BUY at 10 over a book holding
three sells and assorted non-candidates, the cheapest compatible sell is a
member of the candidate list and the list is sorted as claimed. -/
theorem find_matching_orders_spec_witness :
    ((⟨2, 1, "B", .SELL, 9, 4, 0, .PENDING, 2⟩ : Order) ∈
      find_matching_orders
        [⟨1, 1, "B", .SELL, 10, 5, 0, .PENDING, 1⟩,
         ⟨2, 1, "B", .SELL, 9, 4, 0, .PENDING, 2⟩,
         ⟨3, 1, "A", .SELL, 8, 2, 0, .PENDING, 3⟩,
         ⟨4, 2, "B", .SELL, 1, 2, 0, .PENDING, 4⟩]
        ⟨5, 1, "A", .BUY, 10, 5, 0, .PENDING, 5⟩)
  ∧ (find_matching_orders
        [⟨1, 1, "B", .SELL, 10, 5, 0, .PENDING, 1⟩,
         ⟨2, 1, "B", .SELL, 9, 4, 0, .PENDING, 2⟩,
         ⟨3, 1, "A", .SELL, 8, 2, 0, .PENDING, 3⟩,
         ⟨4, 2, "B", .SELL, 1, 2, 0, .PENDING, 4⟩]
        ⟨5, 1, "A", .BUY, 10, 5, 0, .PENDING, 5⟩).Sorted
      (fun a b => a.price < b.price ∨ (a.price = b.price ∧ a.created_at ≤ b.created_at)) := by
  constructor
  · apply ((find_matching_orders_spec _ _).1 _).mpr
    refine ⟨by simp, rfl, rfl, rfl, by simp, ?_, ?_⟩
    · intro _; norm_num
    · intro h; cases h
  · exact (find_matching_orders_spec _ _).2.1 rfl

/-- C8: the order book view contains exactly the active orders of the
item, buys sorted by descending price then ascending creation time, sells
by ascending price then ascending creation time, and every entry exposes
the order's remaining quantity and the notional total
price * remaining. -/
theorem get_order_book_spec (s : EngineState) (item : Nat) :
    (∀ e, e ∈ (get_order_book s item).buy_orders ↔
      ∃ o ∈ s.orders, o.item = item ∧ o.order_type = .BUY ∧ o.is_active = true ∧
        e = order_to_dict o)
  ∧ (∀ e, e ∈ (get_order_book s item).sell_orders ↔
      ∃ o ∈ s.orders, o.item = item ∧ o.order_type = .SELL ∧ o.is_active = true ∧
        e = order_to_dict o)
  ∧ (get_order_book s item).buy_orders.Sorted
      (fun a b => b.price < a.price ∨ (a.price = b.price ∧ a.created_at ≤ b.created_at))
  ∧ (get_order_book s item).sell_orders.Sorted
      (fun a b => a.price < b.price ∨ (a.price = b.price ∧ a.created_at ≤ b.created_at))
  ∧ (∀ o : Order, (order_to_dict o).quantity = o.quantity - o.filled_quantity ∧
      (order_to_dict o).total = o.price * ((o.quantity - o.filled_quantity : ℤ) : ℚ)) := by
  refine ⟨?_, ?_, ?_, ?_, ?_⟩
  · intro e
    unfold get_order_book bookSideOk
    simp only [List.mem_map, List.mem_insertionSort, List.mem_filter]
    constructor
    · rintro ⟨o, ⟨ho, hcond⟩, rfl⟩
      simp only [Bool.and_eq_true, decide_eq_true_eq] at hcond
      exact ⟨o, ho, hcond.1.1, hcond.1.2, hcond.2, rfl⟩
    · rintro ⟨o, ho, h1, h2, h3, rfl⟩
      exact ⟨o, ⟨ho, by simp [h1, h2, h3]⟩, rfl⟩
  · intro e
    unfold get_order_book bookSideOk
    simp only [List.mem_map, List.mem_insertionSort, List.mem_filter]
    constructor
    · rintro ⟨o, ⟨ho, hcond⟩, rfl⟩
      simp only [Bool.and_eq_true, decide_eq_true_eq] at hcond
      exact ⟨o, ho, hcond.1.1, hcond.1.2, hcond.2, rfl⟩
    · rintro ⟨o, ho, h1, h2, h3, rfl⟩
      exact ⟨o, ⟨ho, by simp [h1, h2, h3]⟩, rfl⟩
  · unfold get_order_book
    apply List.Pairwise.map
    · intro a b hab
      exact hab
    · exact List.sorted_insertionSort priceDescLE _
  · unfold get_order_book
    apply List.Pairwise.map
    · intro a b hab
      exact hab
    · exact List.sorted_insertionSort priceAscLE _
  · intro o
    exact ⟨rfl, rfl⟩

/-- Witness for C8: a concrete book query. -/
theorem get_order_book_spec_witness :
    (order_to_dict ⟨1, 1, "A", .BUY, 10, 5, 2, .PARTIAL, 1⟩ ∈
      (get_order_book ⟨[⟨1, 1, "A", .BUY, 10, 5, 2, .PARTIAL, 1⟩,
        ⟨2, 1, "C", .SELL, 15, 3, 0, .PENDING, 3⟩], [], 3, 4⟩ 1).buy_orders)
  ∧ (order_to_dict ⟨1, 1, "A", .BUY, 10, 5, 2, .PARTIAL, 1⟩).quantity = 3 := by
  constructor
  · apply ((get_order_book_spec _ 1).1 _).mpr
    exact ⟨_, by simp, rfl, rfl, by rfl, rfl⟩
  · have := ((get_order_book_spec ⟨[], [], 0, 0⟩ 1).2.2.2.2
      ⟨1, 1, "A", .BUY, 10, 5, 2, .PARTIAL, 1⟩).1
    rw [this]
    norm_num

/-- `SimulationManager._find_agent`: first agent with the id, if any. -/
def findAgent (agents : List Agent) (aid : String) : Option Agent :=
  agents.find? (fun a => decide (a.id = aid))

/-- An absent key reads as zero. -/
theorem invGet_eq_zero_of_not_has (inv : List (Nat × ℤ)) (k : Nat)
    (h : invHas inv k = false) : invGet inv k = 0 := by
  unfold invHas at h
  unfold invGet
  cases hf : inv.find? (fun e => decide (e.1 = k)) with
  | none => rfl
  | some e => rw [hf] at h; simp at h

/-- Reading the key just appended to a dict that lacked it. -/
theorem invGet_append_of_not_has (inv : List (Nat × ℤ)) (k : Nat) (q : ℤ)
    (h : invHas inv k = false) : invGet (inv ++ [(k, q)]) k = q := by
  induction inv with
  | nil => simp [invGet]
  | cons e rest ih =>
    by_cases hk : e.1 = k
    · exfalso
      unfold invHas at h
      rw [List.find?_cons_of_pos rest (by simp [hk])] at h
      simp at h
    · have hrest : invHas rest k = false := by
        unfold invHas at h ⊢
        rwa [List.find?_cons_of_neg rest (by simp [hk])] at h
      unfold invGet at ih ⊢
      rw [List.cons_append, List.find?_cons_of_neg _ (by simp [hk])]
      exact ih hrest

/-- Setting a present key makes it read as the new value. -/
theorem invGet_invSet_self (inv : List (Nat × ℤ)) (k : Nat) (v : ℤ)
    (h : invHas inv k = true) : invGet (invSet inv k v) k = v := by
  unfold invHas at h
  unfold invGet invSet
  induction inv with
  | nil => simp at h
  | cons e rest ih =>
    by_cases he : e.1 = k
    · simp [he]
    · rw [List.find?_cons_of_neg _ (by simp [he])] at h
      rw [List.map_cons, if_neg he, List.find?_cons_of_neg _ (by simp [he])]
      exact ih h

/-- A deleted key reads as zero. -/
theorem invGet_invDel_self (inv : List (Nat × ℤ)) (k : Nat) :
    invGet (invDel inv k) k = 0 := by
  unfold invGet invDel
  cases hf : (inv.filter (fun e => !decide (e.1 = k))).find? (fun e => decide (e.1 = k)) with
  | none => rfl
  | some e =>
    have hmem := List.mem_of_find?_eq_some hf
    have hp := List.find?_some hf
    have := List.of_mem_filter hmem
    simp at hp this
    exact absurd hp this

/-- `add_item` adds exactly the quantity to the item's entry. -/
theorem add_item_invGet (a : Agent) (k : Nat) (q : ℤ) :
    invGet (a.add_item k q).inventory k = invGet a.inventory k + q := by
  unfold Agent.add_item
  cases hh : invHas a.inventory k with
  | true => simp [hh, invGet_invSet_self _ _ _ hh]
  | false =>
    simp only [hh, Bool.false_eq_true, if_false]
    rw [invGet_append_of_not_has _ _ _ hh, invGet_eq_zero_of_not_has _ _ hh]
    ring

/-- `add_item` changes neither the id nor the cash. -/
theorem add_item_core (a : Agent) (k : Nat) (q : ℤ) :
    (a.add_item k q).id = a.id ∧ (a.add_item k q).cash = a.cash := by
  unfold Agent.add_item
  cases hh : invHas a.inventory k <;> simp

/-- `remove_item` decrements the entry exactly when the held quantity
covers the request, and otherwise leaves the whole inventory unchanged. -/
theorem remove_item_invGet (a : Agent) (k : Nat) (q : ℤ) (hq : 0 < q) :
    invGet ((a.remove_item k q).1).inventory k =
      (if q ≤ invGet a.inventory k then invGet a.inventory k - q
       else invGet a.inventory k) := by
  unfold Agent.remove_item Agent.get_item_quantity
  by_cases hc : q ≤ invGet a.inventory k
  · rw [if_pos hc, if_pos hc]
    by_cases hz : invGet a.inventory k - q = 0
    · rw [if_pos hz]
      simpa [invGet_invDel_self] using hz.symm
    · rw [if_neg hz]
      have hhas : invHas a.inventory k = true := by
        cases hh : invHas a.inventory k with
        | true => rfl
        | false =>
          exfalso
          rw [invGet_eq_zero_of_not_has _ _ hh] at hc
          linarith
      simp [invGet_invSet_self _ _ _ hhas]
  · rw [if_neg hc, if_neg hc]

/-- The failure branch of `remove_item` leaves the agent untouched. -/
theorem remove_item_short (a : Agent) (k : Nat) (q : ℤ)
    (h : invGet a.inventory k < q) :
    (a.remove_item k q) = (a, false) := by
  unfold Agent.remove_item Agent.get_item_quantity
  rw [if_neg (by linarith)]

/-- `remove_item` changes neither the id nor the cash. -/
theorem remove_item_core (a : Agent) (k : Nat) (q : ℤ) :
    ((a.remove_item k q).1).id = a.id ∧ ((a.remove_item k q).1).cash = a.cash := by
  unfold Agent.remove_item
  by_cases hc : q ≤ a.get_item_quantity k
  · rw [if_pos hc]
    by_cases hz : invGet a.inventory k - q = 0
    · rw [if_pos hz]; exact ⟨rfl, rfl⟩
    · rw [if_neg hz]; exact ⟨rfl, rfl⟩
  · rw [if_neg hc]; exact ⟨rfl, rfl⟩

/-- Updating the first agent with an id-preserving function rewrites
exactly the entry `findAgent` returns. -/
theorem findAgent_updateFirstAgent_self (agents : List Agent) (aid : String)
    (f : Agent → Agent) (hf : ∀ a, (f a).id = a.id) :
    findAgent (updateFirstAgent agents aid f) aid = (findAgent agents aid).map f := by
  induction agents with
  | nil => rfl
  | cons a rest ih =>
    unfold updateFirstAgent findAgent
    by_cases ha : a.id = aid
    · rw [if_pos ha]
      rw [List.find?_cons_of_pos _ (by simp [hf a, ha]),
        List.find?_cons_of_pos _ (by simp [ha])]
      rfl
    · rw [if_neg ha]
      rw [List.find?_cons_of_neg _ (by simp [ha]),
        List.find?_cons_of_neg _ (by simp [ha])]
      exact ih

/-- Updating the first agent with one id leaves lookups of any other id
unchanged. -/
theorem findAgent_updateFirstAgent_ne (agents : List Agent) (aid aid' : String)
    (f : Agent → Agent) (hf : ∀ a, (f a).id = a.id) (h : aid' ≠ aid) :
    findAgent (updateFirstAgent agents aid f) aid' = findAgent agents aid' := by
  induction agents with
  | nil => rfl
  | cons a rest ih =>
    unfold updateFirstAgent findAgent
    by_cases ha : a.id = aid
    · rw [if_pos ha]
      rw [List.find?_cons_of_neg _ (by simp [hf a, ha]; exact fun hh => h hh.symm),
        List.find?_cons_of_neg _ (by simp [ha]; exact fun hh => h hh.symm)]
    · rw [if_neg ha]
      by_cases ha' : a.id = aid'
      · rw [List.find?_cons_of_pos _ (by simp [ha']),
          List.find?_cons_of_pos _ (by simp [ha'])]
      · rw [List.find?_cons_of_neg _ (by simp [ha']),
          List.find?_cons_of_neg _ (by simp [ha'])]
        exact ih

/-- C7 fails on the code as stated: when the seller holds less than the
transaction quantity, `remove_item` silently returns false and the
seller's inventory does not decrease at all, while the cash is still
credited.  Concretely: seller S holds 1 unit of item 1, the transaction
sells 2 units at price 3 — afterwards S still holds 1 unit (not 1-2) and
has been paid 6. -/
theorem settlement_short_seller_counterexample :
    update_agents_after_transactions [⟨"B", 100, []⟩, ⟨"S", 0, [(1, 1)]⟩]
        [⟨"B", "S", 1, 3, 2, 10, 11⟩] =
      [⟨"B", 94, [(1, 2)]⟩, ⟨"S", 6, [(1, 1)]⟩]
  ∧ ((1 : ℤ) ≠ 1 - 2) := by
  constructor
  · norm_num [update_agents_after_transactions, settle_tx, updateFirstAgent,
      Agent.add_item, Agent.remove_item, Agent.update_cash, Agent.get_item_quantity,
      Transaction.total_value, invGet, invHas, invSet, invDel]
    decide
  · norm_num

/-- C7 amended: for a settled transaction whose buyer and seller are
(distinct) registered agents, the buyer's cash decreases by total_value
and the buyer's entry for the item increases by the quantity; the seller's
cash increases by total_value, and the seller's entry decreases by the
quantity exactly when the seller holds at least that quantity (staying
non-negative), being left unchanged otherwise. -/
theorem settlement_spec (agents : List Agent) (t : Transaction)
    (hqpos : 0 < t.quantity)
    (hneq : t.buyer_id ≠ t.seller_id)
    (b : Agent) (hb : findAgent agents t.buyer_id = some b)
    (sl : Agent) (hs : findAgent agents t.seller_id = some sl) :
    (∃ b', findAgent (update_agents_after_transactions agents [t]) t.buyer_id = some b' ∧
      b'.cash = b.cash - t.total_value ∧
      invGet b'.inventory t.item = invGet b.inventory t.item + t.quantity)
  ∧ (∃ s', findAgent (update_agents_after_transactions agents [t]) t.seller_id = some s' ∧
      s'.cash = sl.cash + t.total_value ∧
      invGet s'.inventory t.item =
        (if t.quantity ≤ invGet sl.inventory t.item
         then invGet sl.inventory t.item - t.quantity
         else invGet sl.inventory t.item) ∧
      (0 ≤ invGet sl.inventory t.item → 0 ≤ invGet s'.inventory t.item)) := by
  have hsettle : update_agents_after_transactions agents [t] = settle_tx agents t := by
    unfold update_agents_after_transactions
    rfl
  rw [hsettle]
  unfold settle_tx
  set fb : Agent → Agent :=
    fun a => (a.add_item t.item t.quantity).update_cash (-t.total_value) with hfb
  set fs : Agent → Agent :=
    fun a => ((a.remove_item t.item t.quantity).1).update_cash t.total_value with hfs
  have hfbid : ∀ a, (fb a).id = a.id := by
    intro a
    rw [hfb]
    show ((a.add_item t.item t.quantity).update_cash (-t.total_value)).id = a.id
    unfold Agent.update_cash
    exact (add_item_core a t.item t.quantity).1
  have hfsid : ∀ a, (fs a).id = a.id := by
    intro a
    rw [hfs]
    show (((a.remove_item t.item t.quantity).1).update_cash t.total_value).id = a.id
    unfold Agent.update_cash
    exact (remove_item_core a t.item t.quantity).1
  constructor
  · refine ⟨fb b, ?_, ?_, ?_⟩
    · rw [findAgent_updateFirstAgent_ne _ _ _ fs hfsid hneq,
        findAgent_updateFirstAgent_self _ _ fb hfbid, hb]
      rfl
    · show ((b.add_item t.item t.quantity).update_cash (-t.total_value)).cash = _
      unfold Agent.update_cash
      rw [(add_item_core b t.item t.quantity).2]
      ring
    · show invGet ((b.add_item t.item t.quantity).update_cash (-t.total_value)).inventory
          t.item = _
      unfold Agent.update_cash
      exact add_item_invGet b t.item t.quantity
  · refine ⟨fs sl, ?_, ?_, ?_, ?_⟩
    · rw [findAgent_updateFirstAgent_self _ _ fs hfsid,
        findAgent_updateFirstAgent_ne _ _ _ fb hfbid (Ne.symm hneq), hs]
      rfl
    · show (((sl.remove_item t.item t.quantity).1).update_cash t.total_value).cash = _
      unfold Agent.update_cash
      rw [(remove_item_core sl t.item t.quantity).2]
    · show invGet (((sl.remove_item t.item t.quantity).1).update_cash
          t.total_value).inventory t.item = _
      unfold Agent.update_cash
      exact remove_item_invGet sl t.item t.quantity hqpos
    · intro h0
      show (0 : ℤ) ≤ invGet (((sl.remove_item t.item t.quantity).1).update_cash
          t.total_value).inventory t.item
      unfold Agent.update_cash
      rw [remove_item_invGet sl t.item t.quantity hqpos]
      by_cases hc : t.quantity ≤ invGet sl.inventory t.item
      · rw [if_pos hc]; linarith
      · rw [if_neg hc]; exact h0

/-- Witness for C7's amended theorem: a funded buyer and a covered seller. -/
theorem settlement_spec_witness :
    ∃ s', findAgent (update_agents_after_transactions
        [⟨"B", 100, []⟩, ⟨"S", 0, [(1, 5)]⟩] [⟨"B", "S", 1, 3, 2, 10, 11⟩]) "S" = some s' ∧
      s'.cash = 0 + Transaction.total_value ⟨"B", "S", 1, 3, 2, 10, 11⟩ ∧
      invGet s'.inventory 1 =
        (if (2 : ℤ) ≤ invGet [(1, 5)] 1 then invGet [(1, 5)] 1 - 2 else invGet [(1, 5)] 1) ∧
      (0 ≤ invGet ([(1, 5)] : List (Nat × ℤ)) 1 → 0 ≤ invGet s'.inventory 1) := by
  have h := settlement_spec [⟨"B", 100, []⟩, ⟨"S", 0, [(1, 5)]⟩] ⟨"B", "S", 1, 3, 2, 10, 11⟩
    (by norm_num) (by decide) ⟨"B", 100, []⟩ (by decide) ⟨"S", 0, [(1, 5)]⟩ (by decide)
  exact h.2

/-- A dict whose entries are all non-negative reads non-negative
everywhere. -/
theorem invGet_nonneg (inv : List (Nat × ℤ)) (k : Nat)
    (h : ∀ e ∈ inv, 0 ≤ e.2) : 0 ≤ invGet inv k := by
  unfold invGet
  cases hf : inv.find? (fun e => decide (e.1 = k)) with
  | none => exact le_refl 0
  | some e => exact h e (List.mem_of_find?_eq_some hf)

/-- `add_item` with a non-negative quantity keeps every entry
non-negative. -/
theorem add_item_entries_nonneg (a : Agent) (k : Nat) (q : ℤ) (hq : 0 ≤ q)
    (h : ∀ e ∈ a.inventory, 0 ≤ e.2) :
    ∀ e ∈ (a.add_item k q).inventory, 0 ≤ e.2 := by
  unfold Agent.add_item
  by_cases hh : invHas a.inventory k
  · rw [if_pos hh]
    intro e he
    simp only [invSet, List.mem_map] at he
    obtain ⟨e0, he0, he0eq⟩ := he
    by_cases hk : e0.1 = k
    · rw [← he0eq, if_pos hk]
      have := invGet_nonneg a.inventory k h
      simpa using by linarith
    · rw [← he0eq, if_neg hk]
      exact h e0 he0
  · rw [if_neg hh]
    intro e he
    rcases List.mem_append.mp he with h1 | h2
    · exact h e h1
    · simp at h2
      rw [h2]
      simpa using hq

/-- `remove_item` keeps every entry non-negative. -/
theorem remove_item_entries_nonneg (a : Agent) (k : Nat) (q : ℤ)
    (h : ∀ e ∈ a.inventory, 0 ≤ e.2) :
    ∀ e ∈ ((a.remove_item k q).1).inventory, 0 ≤ e.2 := by
  unfold Agent.remove_item
  by_cases hc : q ≤ a.get_item_quantity k
  · rw [if_pos hc]
    by_cases hz : invGet a.inventory k - q = 0
    · rw [if_pos hz]
      intro e he
      exact h e (List.mem_of_mem_filter he)
    · rw [if_neg hz]
      intro e he
      simp only [invSet, List.mem_map] at he
      obtain ⟨e0, he0, he0eq⟩ := he
      by_cases hk : e0.1 = k
      · rw [← he0eq, if_pos hk]
        have hguard : q ≤ invGet a.inventory k := hc
        simpa using by linarith
      · rw [← he0eq, if_neg hk]
        exact h e0 he0
  · rw [if_neg hc]
    exact h

/-- Members of the updated agent list are original agents or the image of
one under the update. -/
theorem updateFirstAgent_mem (agents : List Agent) (aid : String) (f : Agent → Agent) :
    ∀ a' ∈ updateFirstAgent agents aid f, a' ∈ agents ∨ ∃ a ∈ agents, a' = f a := by
  induction agents with
  | nil => intro a' h; simp [updateFirstAgent] at h
  | cons a rest ih =>
    intro a' h
    unfold updateFirstAgent at h
    by_cases ha : a.id = aid
    · rw [if_pos ha] at h
      rcases List.mem_cons.mp h with h1 | h2
      · exact Or.inr ⟨a, List.mem_cons_self a rest, h1⟩
      · exact Or.inl (List.mem_cons_of_mem _ h2)
    · rw [if_neg ha] at h
      rcases List.mem_cons.mp h with h1 | h2
      · exact Or.inl (h1 ▸ List.mem_cons_self a rest)
      · rcases ih a' h2 with hh | ⟨a0, ha0, ha0eq⟩
        · exact Or.inl (List.mem_cons_of_mem _ hh)
        · exact Or.inr ⟨a0, List.mem_cons_of_mem _ ha0, ha0eq⟩

/-- One settlement step keeps every inventory entry non-negative when the
transaction quantity is non-negative. -/
theorem settle_tx_entries_nonneg (agents : List Agent) (t : Transaction)
    (hq : 0 ≤ t.quantity)
    (h : ∀ a ∈ agents, ∀ e ∈ a.inventory, 0 ≤ e.2) :
    ∀ a' ∈ settle_tx agents t, ∀ e ∈ a'.inventory, 0 ≤ e.2 := by
  unfold settle_tx
  intro a' ha'
  rcases updateFirstAgent_mem _ _ _ a' ha' with h1 | ⟨a1, ha1, rfl⟩
  · rcases updateFirstAgent_mem _ _ _ a' h1 with h2 | ⟨a2, ha2, rfl⟩
    · exact h a' h2
    · show ∀ e ∈ ((a2.add_item t.item t.quantity).update_cash (-t.total_value)).inventory,
        0 ≤ e.2
      unfold Agent.update_cash
      exact add_item_entries_nonneg a2 t.item t.quantity hq (h a2 ha2)
  · rcases updateFirstAgent_mem _ _ _ a1 ha1 with h2 | ⟨a2, ha2, rfl⟩
    · show ∀ e ∈ (((a1.remove_item t.item t.quantity).1).update_cash
          t.total_value).inventory, 0 ≤ e.2
      unfold Agent.update_cash
      exact remove_item_entries_nonneg a1 t.item t.quantity (h a1 h2)
    · show ∀ e ∈ ((((a2.add_item t.item t.quantity).update_cash
          (-t.total_value)).remove_item t.item t.quantity).1.update_cash
          t.total_value).inventory, 0 ≤ e.2
      unfold Agent.update_cash
      apply remove_item_entries_nonneg
      exact add_item_entries_nonneg a2 t.item t.quantity hq (h a2 ha2)

/-- C10: when the seller's held quantity is below the transaction
quantity, settlement leaves the seller's inventory entirely unchanged
(the decrement is skipped silently — nothing is clamped and the model
raises no error) while the seller's cash is still credited with the full
total value; and settlement of non-negative-quantity transactions never
produces a negative inventory entry. -/
theorem settlement_short_seller_spec (agents : List Agent) (t : Transaction)
    (hneq : t.buyer_id ≠ t.seller_id)
    (sl : Agent) (hs : findAgent agents t.seller_id = some sl)
    (hshort : invGet sl.inventory t.item < t.quantity) :
    (∃ s', findAgent (update_agents_after_transactions agents [t]) t.seller_id = some s' ∧
      s'.inventory = sl.inventory ∧ s'.cash = sl.cash + t.total_value)
  ∧ (∀ (agents0 : List Agent) (txs : List Transaction),
      (∀ t' ∈ txs, 0 ≤ t'.quantity) →
      (∀ a ∈ agents0, ∀ e ∈ a.inventory, 0 ≤ e.2) →
      ∀ a' ∈ update_agents_after_transactions agents0 txs, ∀ e ∈ a'.inventory, 0 ≤ e.2) := by
  constructor
  · have hsettle : update_agents_after_transactions agents [t] = settle_tx agents t := rfl
    rw [hsettle]
    unfold settle_tx
    set fb : Agent → Agent :=
      fun a => (a.add_item t.item t.quantity).update_cash (-t.total_value) with hfb
    set fs : Agent → Agent :=
      fun a => ((a.remove_item t.item t.quantity).1).update_cash t.total_value with hfs
    have hfbid : ∀ a, (fb a).id = a.id := by
      intro a
      show ((a.add_item t.item t.quantity).update_cash (-t.total_value)).id = a.id
      unfold Agent.update_cash
      exact (add_item_core a t.item t.quantity).1
    have hfsid : ∀ a, (fs a).id = a.id := by
      intro a
      show (((a.remove_item t.item t.quantity).1).update_cash t.total_value).id = a.id
      unfold Agent.update_cash
      exact (remove_item_core a t.item t.quantity).1
    refine ⟨fs sl, ?_, ?_, ?_⟩
    · rw [findAgent_updateFirstAgent_self _ _ fs hfsid,
        findAgent_updateFirstAgent_ne _ _ _ fb hfbid (Ne.symm hneq), hs]
      rfl
    · show (((sl.remove_item t.item t.quantity).1).update_cash t.total_value).inventory =
        sl.inventory
      rw [remove_item_short sl t.item t.quantity hshort]
      rfl
    · show (((sl.remove_item t.item t.quantity).1).update_cash t.total_value).cash =
        sl.cash + t.total_value
      rw [remove_item_short sl t.item t.quantity hshort]
      rfl
  · intro agents0 txs
    induction txs generalizing agents0 with
    | nil =>
      intro _ h0 a' ha'
      exact h0 a' ha'
    | cons t0 rest ih =>
      intro hq h0 a' ha'
      have hstep : update_agents_after_transactions agents0 (t0 :: rest) =
          update_agents_after_transactions (settle_tx agents0 t0) rest := rfl
      rw [hstep] at ha'
      exact ih (settle_tx agents0 t0)
        (fun t' ht' => hq t' (List.mem_cons_of_mem _ ht'))
        (settle_tx_entries_nonneg agents0 t0 (hq t0 (List.mem_cons_self _ _)) h0)
        a' ha'

/-- Witness for C10: the concrete short seller of one unit paid for two. -/
theorem settlement_short_seller_spec_witness :
    ∃ s', findAgent (update_agents_after_transactions
        [⟨"B", 100, []⟩, ⟨"S", 0, [(1, 1)]⟩] [⟨"B", "S", 1, 3, 2, 10, 11⟩]) "S" = some s' ∧
      s'.inventory = [(1, 1)] ∧
      s'.cash = 0 + Transaction.total_value ⟨"B", "S", 1, 3, 2, 10, 11⟩ := by
  have h := settlement_short_seller_spec [⟨"B", 100, []⟩, ⟨"S", 0, [(1, 1)]⟩]
    ⟨"B", "S", 1, 3, 2, 10, 11⟩ (by decide) ⟨"S", 0, [(1, 1)]⟩ (by decide) (by decide)
  exact h.1

/-! Machinery for the matching invariants (claims about `_execute_matches`
and the `match_orders` sweep). -/

/-- Core equality spelled out field by field. -/
theorem core_eq_iff (x y : Order) : x.core = y.core ↔
    (x.id = y.id ∧ x.item = y.item ∧ x.agent_id = y.agent_id ∧
      x.order_type = y.order_type ∧ x.price = y.price ∧ x.created_at = y.created_at) := by
  unfold Order.core
  simp [Prod.ext_iff]

/-- `update_status` only rewrites the status field. -/
theorem update_status_fields (o : Order) :
    (o.update_status).id = o.id ∧ (o.update_status).item = o.item ∧
    (o.update_status).agent_id = o.agent_id ∧ (o.update_status).order_type = o.order_type ∧
    (o.update_status).price = o.price ∧ (o.update_status).quantity = o.quantity ∧
    (o.update_status).filled_quantity = o.filled_quantity ∧
    (o.update_status).created_at = o.created_at := by
  unfold Order.update_status
  split_ifs <;> simp

/-- `update_status` leaves the immutable columns unchanged. -/
theorem update_status_core (o : Order) : (o.update_status).core = o.core := by
  unfold Order.update_status
  split_ifs <;> rfl

/-- The status `update_status` assigns is the derived status function. -/
theorem update_status_status (o : Order) :
    (o.update_status).status = derivedStatus o.filled_quantity o.quantity := by
  unfold Order.update_status derivedStatus
  split_ifs <;> rfl

/-- `update_status` of an in-bounds order satisfies the row invariant. -/
theorem update_status_OrderInv (o : Order) (h1 : 1 ≤ o.quantity)
    (h2 : 0 ≤ o.filled_quantity) (h3 : o.filled_quantity ≤ o.quantity) :
    OrderInv o.update_status := by
  obtain ⟨_, _, _, _, _, hq, hf, _⟩ := update_status_fields o
  refine ⟨by rw [hq]; exact h1, by rw [hf]; exact h2, by rw [hf, hq]; exact h3, ?_⟩
  refine Or.inr (Or.inr ?_)
  rw [update_status_status, hf, hq]

/-- An active well-formed order has at least one unit remaining. -/
theorem OrderInv_active_remaining (o : Order) (hinv : OrderInv o)
    (hact : o.is_active = true) : 1 ≤ o.remaining_quantity := by
  obtain ⟨hq, hf0, hfq, hst⟩ := hinv
  unfold Order.remaining_quantity
  rcases hst with hc | he | hd
  · rw [Order.is_active, hc] at hact; simp at hact
  · rw [Order.is_active, he] at hact; simp at hact
  · unfold derivedStatus at hd
    by_cases h0 : o.filled_quantity = 0
    · rw [h0]; linarith
    · rw [if_neg h0] at hd
      by_cases hlt : o.filled_quantity < o.quantity
      · linarith
      · rw [if_neg hlt] at hd
        rw [Order.is_active, hd] at hact
        simp at hact

/-- The candidate filter, decoded into propositions. -/
theorem candOk_iff (no c : Order) : candOk no c = true ↔
    (c.item = no.item ∧ c.order_type = opposite no.order_type ∧ c.is_active = true ∧
      c.agent_id ≠ no.agent_id ∧
      (no.order_type = .BUY → c.price ≤ no.price) ∧
      (no.order_type = .SELL → no.price ≤ c.price)) := by
  unfold candOk
  by_cases hbt : no.order_type = OrderType.BUY
  · simp [hbt]
    tauto
  · have hst : no.order_type = OrderType.SELL := by
      cases h : no.order_type
      · exact absurd h hbt
      · rfl
    simp [hst]
    tauto

/-- Candidate membership in `_find_matching_orders`. -/
theorem mem_find_matching (db : List Order) (no c : Order) :
    c ∈ find_matching_orders db no ↔ (c ∈ db ∧ candOk no c = true) := by
  unfold find_matching_orders
  by_cases hbt : no.order_type = OrderType.BUY
  · rw [if_pos hbt]
    rw [List.mem_insertionSort, List.mem_filter]
  · rw [if_neg hbt]
    rw [List.mem_insertionSort, List.mem_filter]

/-- For an incoming BUY the candidate filter is exactly activity plus the
compatible pairing with the incoming order on the buy side. -/
theorem candOk_buy (no c : Order) (h : no.order_type = .BUY) :
    (candOk no c = true) ↔ (c.is_active = true ∧ compatPair no c) := by
  rw [candOk_iff]
  unfold compatPair
  rw [h]
  unfold opposite
  constructor
  · rintro ⟨h1, h2, h3, h4, h5, h6⟩
    exact ⟨h3, h1.symm, rfl, h2, fun hh => h4 hh.symm, h5 rfl⟩
  · rintro ⟨h3, h1, _, h2, h4, h5⟩
    refine ⟨h1.symm, h2, h3, fun hh => h4 hh.symm, fun _ => h5, ?_⟩
    intro hcon
    exact absurd hcon (by decide)

/-- For an incoming SELL the candidate filter is exactly activity plus the
compatible pairing with the incoming order on the sell side. -/
theorem candOk_sell (no c : Order) (h : no.order_type = .SELL) :
    (candOk no c = true) ↔ (c.is_active = true ∧ compatPair c no) := by
  rw [candOk_iff]
  unfold compatPair
  rw [h]
  unfold opposite
  constructor
  · rintro ⟨h1, h2, h3, h4, h5, h6⟩
    exact ⟨h3, h1, h2, rfl, h4, h6 rfl⟩
  · rintro ⟨h3, h1, h2, _, h4, h5⟩
    refine ⟨h1, h2, h3, h4, ?_, fun _ => h5⟩
    intro hcon
    exact absurd hcon (by decide)

/-- The compatible pairing only depends on the immutable columns. -/
theorem compat_core (x x' y y' : Order) (hx : x.core = x'.core) (hy : y.core = y'.core) :
    compatPair x y ↔ compatPair x' y' := by
  obtain ⟨_, hxi, hxa, hxt, hxp, _⟩ := (core_eq_iff x x').mp hx
  obtain ⟨_, hyi, hya, hyt, hyp, _⟩ := (core_eq_iff y y').mp hy
  unfold compatPair
  rw [hxi, hxa, hxt, hxp, hyi, hya, hyt, hyp]

/-- Core equality implies id equality. -/
theorem core_id_eq (x y : Order) (h : x.core = y.core) : x.id = y.id :=
  ((core_eq_iff x y).mp h).1

/-- The candidate list's ids are distinct when the table's are. -/
theorem find_matching_ids_nodup (db : List Order) (no : Order)
    (h : (db.map Order.id).Nodup) :
    ((find_matching_orders db no).map Order.id).Nodup := by
  have hsub : (db.filter (candOk no)).Sublist db := List.filter_sublist db
  have hfil : ((db.filter (candOk no)).map Order.id).Nodup :=
    (hsub.map Order.id).nodup h
  unfold find_matching_orders
  by_cases hbt : no.order_type = OrderType.BUY
  · rw [if_pos hbt]
    exact ((List.perm_insertionSort priceAscLE _).map Order.id).nodup_iff.mpr hfil
  · rw [if_neg hbt]
    exact ((List.perm_insertionSort priceDescLE _).map Order.id).nodup_iff.mpr hfil

/-- A row with a different id survives a save unchanged. -/
theorem mem_saveOrder_of_ne (db : List Order) (x r : Order) (h : r ∈ db)
    (hne : r.id ≠ x.id) : r ∈ saveOrder db x := by
  unfold saveOrder
  have : (fun q => if q.id = x.id then x else q) r = r := if_neg hne
  rw [← this]
  exact List.mem_map_of_mem _ h

/-- Every row of a save is an original row or carries the saved id. -/
theorem mem_saveOrder_cases (db : List Order) (x r' : Order)
    (h : r' ∈ saveOrder db x) : r' ∈ db ∨ r' = x := by
  unfold saveOrder at h
  obtain ⟨r, hr, hreq⟩ := List.mem_map.mp h
  by_cases hc : r.id = x.id
  · rw [if_pos hc] at hreq
    exact Or.inr hreq.symm
  · rw [if_neg hc] at hreq
    exact Or.inl (hreq ▸ hr)

/-- Saving a row whose core matches the stored row's core preserves the
whole table's immutable columns. -/
theorem saveOrder_map_core (db : List Order) (x : Order)
    (h : ∀ r ∈ db, r.id = x.id → r.core = x.core) :
    (saveOrder db x).map Order.core = db.map Order.core := by
  unfold saveOrder
  rw [List.map_map]
  apply List.map_congr_left
  intro r hr
  by_cases hc : r.id = x.id
  · show Order.core (if r.id = x.id then x else r) = r.core
    rw [if_pos hc]
    exact (h r hr hc).symm
  · show Order.core (if r.id = x.id then x else r) = r.core
    rw [if_neg hc]

/-- Tables with equal immutable columns answer id lookups with rows of
equal immutable columns. -/
theorem rowById_core_eq (db1 db2 : List Order)
    (h : db1.map Order.core = db2.map Order.core) (i : Nat) :
    Option.map Order.core (rowById db1 i) = Option.map Order.core (rowById db2 i) := by
  induction db1 generalizing db2 with
  | nil =>
    cases db2 with
    | nil => rfl
    | cons r2 rest2 => simp at h
  | cons r1 rest1 ih =>
    cases db2 with
    | nil => simp at h
    | cons r2 rest2 =>
      simp only [List.map_cons, List.cons.injEq] at h
      have hid : r1.id = r2.id := core_id_eq r1 r2 h.1
      unfold rowById
      by_cases hc : r1.id = i
      · rw [List.find?_cons_of_pos _ (by simp [hc]),
          List.find?_cons_of_pos _ (by simp [← hid, hc])]
        simpa using h.1
      · rw [List.find?_cons_of_neg _ (by simp [hc]),
          List.find?_cons_of_neg _ (by simp [← hid, hc])]
        exact ih rest2 h.2

/-- A core present in one table is present in any table with the same
immutable columns. -/
theorem core_mem_of_map_core_eq (db1 db2 : List Order)
    (h : db1.map Order.core = db2.map Order.core) (r : Order) (hr : r ∈ db1) :
    ∃ r' ∈ db2, r'.core = r.core := by
  have : r.core ∈ db2.map Order.core := by
    rw [← h]
    exact List.mem_map_of_mem _ hr
  obtain ⟨r', hr', hr'eq⟩ := List.mem_map.mp this
  exact ⟨r', hr', hr'eq⟩

/-- A saved row with a previously present id is a member of the result. -/
theorem mem_saveOrder_self (db : List Order) (x : Order)
    (h : ∃ r0 ∈ db, r0.id = x.id) : x ∈ saveOrder db x := by
  obtain ⟨r0, hr0, hr0id⟩ := h
  unfold saveOrder
  exact List.mem_map.mpr ⟨r0, hr0, if_pos hr0id⟩

/-- Equal immutable columns give equal id columns. -/
theorem map_core_eq_map_id (db1 db2 : List Order)
    (h : db1.map Order.core = db2.map Order.core) :
    db1.map Order.id = db2.map Order.id := by
  have h2 := congrArg (List.map Prod.fst) h
  rw [List.map_map, List.map_map] at h2
  exact h2

/-- The loop returns immediately on an exhausted quantity or candidate
list. -/
theorem execute_matches_go_stop (db : List Order) (no : Order) (rem : ℤ)
    (cands : List Order) (acc : List Transaction) (h : rem ≤ 0 ∨ cands = []) :
    execute_matches_go db no rem cands acc = ⟨db, no, acc⟩ := by
  cases cands with
  | nil => rfl
  | cons m rest =>
    rcases h with h | h
    · unfold execute_matches_go
      rw [if_pos h]
    · cases h

/-- One unfolding of the loop when a trade happens. -/
theorem execute_matches_go_cons (db : List Order) (no : Order) (rem : ℤ)
    (m : Order) (rest : List Order) (acc : List Transaction) (h : ¬ rem ≤ 0) :
    execute_matches_go db no rem (m :: rest) acc =
      execute_matches_go
        (saveOrder
          (saveOrder db
            (Order.update_status
              { no with filled_quantity := no.filled_quantity + min rem m.remaining_quantity }))
          (Order.update_status
            { m with filled_quantity := m.filled_quantity + min rem m.remaining_quantity }))
        (Order.update_status
          { no with filled_quantity := no.filled_quantity + min rem m.remaining_quantity })
        (rem - min rem m.remaining_quantity) rest
        (acc ++ [if no.order_type = OrderType.BUY then
            ⟨no.agent_id, m.agent_id, no.item, m.price,
              min rem m.remaining_quantity, no.id, m.id⟩
          else
            ⟨m.agent_id, no.agent_id, no.item, m.price,
              min rem m.remaining_quantity, m.id, no.id⟩]) := by
  conv_lhs => unfold execute_matches_go
  rw [if_neg h]

/-- The combined bookkeeping facts about the `_execute_matches` loop.
With a well-formed table, a stale-or-fresh incoming order object whose
immutable columns agree with its stored row, and candidates that are
active well-formed rows of other agents, the loop: keeps every row
well-formed, never touches the immutable columns, leaves unrelated rows
in place, only rewrites the incoming row and candidate rows, and ends
with either the incoming row FILLED or every candidate row FILLED. -/
theorem execute_matches_go_facts (cands : List Order) :
    ∀ (db : List Order) (no : Order) (rem : ℤ) (acc : List Transaction),
    (∀ r ∈ db, OrderInv r) →
    ((db.map Order.id).Nodup) →
    (∃ r0 ∈ db, r0.core = no.core) →
    (∀ m ∈ cands, m ∈ db ∧ OrderInv m ∧ m.is_active = true ∧ m.agent_id ≠ no.agent_id) →
    ((cands.map Order.id).Nodup) →
    (1 ≤ no.quantity) →
    (0 ≤ no.filled_quantity) →
    (no.filled_quantity + rem = no.quantity) →
    (∀ r ∈ (execute_matches_go db no rem cands acc).db, OrderInv r) ∧
    ((execute_matches_go db no rem cands acc).db.map Order.core = db.map Order.core) ∧
    (∀ r ∈ db, r.id ≠ no.id → (∀ m ∈ cands, r.id ≠ m.id) →
      r ∈ (execute_matches_go db no rem cands acc).db) ∧
    (∀ r' ∈ (execute_matches_go db no rem cands acc).db,
      r' ∈ db ∨ r'.id = no.id ∨ (∃ m ∈ cands, r'.id = m.id)) ∧
    (0 < rem →
      ((∃ r ∈ (execute_matches_go db no rem cands acc).db,
          r.id = no.id ∧ r.status = .FILLED) ∨
       (∀ m ∈ cands, ∃ r ∈ (execute_matches_go db no rem cands acc).db,
          r.id = m.id ∧ r.status = .FILLED))) := by
  induction cands with
  | nil =>
    intro db no rem acc hdbinv hnodup hrow hcands hcnodup hq hf hsync
    rw [execute_matches_go_stop db no rem [] acc (Or.inr rfl)]
    refine ⟨hdbinv, rfl, fun r hr _ _ => hr, fun r' hr' => Or.inl hr', ?_⟩
    intro _
    exact Or.inr (fun m hm => absurd hm (List.not_mem_nil m))
  | cons m rest ih =>
    intro db no rem acc hdbinv hnodup hrow hcands hcnodup hq hf hsync
    by_cases hstop : rem ≤ 0
    · rw [execute_matches_go_stop db no rem (m :: rest) acc (Or.inl hstop)]
      refine ⟨hdbinv, rfl, fun r hr _ _ => hr, fun r' hr' => Or.inl hr', ?_⟩
      intro hpos
      exact absurd hpos (by linarith)
    · -- facts about the head trade
      obtain ⟨r0, hr0mem, hr0core⟩ := hrow
      have hr0id : r0.id = no.id := core_id_eq _ _ hr0core
      obtain ⟨hmmem, hminv, hmact, hmagent⟩ := hcands m (List.mem_cons_self m rest)
      have hr0agent : r0.agent_id = no.agent_id := ((core_eq_iff _ _).mp hr0core).2.2.1
      have hmid_ne : m.id ≠ no.id := by
        intro hmid
        have : m = r0 :=
          List.inj_on_of_nodup_map hnodup hmmem hr0mem (by rw [hmid, hr0id])
        rw [this] at hmagent
        exact hmagent hr0agent
      have hrempos : 0 < rem := lt_of_not_le hstop
      have hmrem : 1 ≤ m.remaining_quantity := OrderInv_active_remaining m hminv hmact
      have htradele : min rem m.remaining_quantity ≤ m.remaining_quantity := min_le_right _ _
      have htradele2 : min rem m.remaining_quantity ≤ rem := min_le_left _ _
      have htradepos : 0 < min rem m.remaining_quantity := lt_min hrempos (by linarith)
      set trade := min rem m.remaining_quantity with htrade
      set no' := Order.update_status { no with filled_quantity := no.filled_quantity + trade }
        with hno'
      set m' := Order.update_status { m with filled_quantity := m.filled_quantity + trade }
        with hm'
      set db' := saveOrder (saveOrder db no') m' with hdb'
      set tx := (if no.order_type = OrderType.BUY then
          (⟨no.agent_id, m.agent_id, no.item, m.price, trade, no.id, m.id⟩ : Transaction)
        else ⟨m.agent_id, no.agent_id, no.item, m.price, trade, m.id, no.id⟩) with htx
      have hno'core : no'.core = no.core := by
        rw [hno', update_status_core]
        rfl
      have hm'core : m'.core = m.core := by
        rw [hm', update_status_core]
        rfl
      have hno'id : no'.id = no.id := core_id_eq _ _ hno'core
      have hm'id : m'.id = m.id := core_id_eq _ _ hm'core
      have hno'agent : no'.agent_id = no.agent_id := ((core_eq_iff _ _).mp hno'core).2.2.1
      have hno'q : no'.quantity = no.quantity := by
        rw [hno']
        exact (update_status_fields _).2.2.2.2.2.1
      have hno'f : no'.filled_quantity = no.filled_quantity + trade := by
        rw [hno']
        exact (update_status_fields _).2.2.2.2.2.2.1
      -- the unique row with the incoming id
      have huniq_no : ∀ r ∈ db, r.id = no.id → r.core = no.core := by
        intro r hr hrid
        have : r = r0 := List.inj_on_of_nodup_map hnodup hr hr0mem (by rw [hrid, hr0id])
        rw [this, hr0core]
      have huniq_m : ∀ r ∈ db, r.id = m.id → r = m := by
        intro r hr hrid
        exact List.inj_on_of_nodup_map hnodup hr hmmem hrid
      -- core preservation through the two saves
      have hcore1 : (saveOrder db no').map Order.core = db.map Order.core := by
        apply saveOrder_map_core
        intro r hr hrid
        rw [hno'core]
        exact huniq_no r hr (by rw [← hno'id]; exact hrid)
      have hcore2 : db'.map Order.core = db.map Order.core := by
        rw [hdb']
        rw [← hcore1]
        apply saveOrder_map_core
        intro r hr hrid
        rcases mem_saveOrder_cases _ _ _ hr with hrdb | hrno
        · have : r = m := huniq_m r hrdb (by rw [← hm'id]; exact hrid)
          rw [this, hm'core]
        · exfalso
          rw [hrno] at hrid
          rw [hno'id, hm'id] at hrid
          exact hmid_ne hrid.symm
      have hnodup' : (db'.map Order.id).Nodup := by
        rw [map_core_eq_map_id db' db hcore2]
        exact hnodup
      -- row invariants in db'
      have hno'inv : OrderInv no' := by
        rw [hno']
        apply update_status_OrderInv <;> simp only []
        · exact hq
        · linarith
        · linarith
      have hm'inv : OrderInv m' := by
        rw [hm']
        apply update_status_OrderInv <;> simp only []
        · exact hminv.1
        · have := hminv.2.1
          linarith
        · have h3 := hminv.2.2.1
          unfold Order.remaining_quantity at htradele
          linarith
      have hdb'inv : ∀ r ∈ db', OrderInv r := by
        intro r hr
        rcases mem_saveOrder_cases _ _ _ hr with hr1 | hr1
        · rcases mem_saveOrder_cases _ _ _ hr1 with hr2 | hr2
          · exact hdbinv r hr2
          · rw [hr2]; exact hno'inv
        · rw [hr1]; exact hm'inv
      -- the incoming row is present in db'
      have hno'mem : no' ∈ db' := by
        rw [hdb']
        apply mem_saveOrder_of_ne
        · apply mem_saveOrder_self
          exact ⟨r0, hr0mem, by rw [hr0id, hno'id]⟩
        · rw [hno'id, hm'id]
          exact fun hh => hmid_ne hh.symm
      have hrow' : ∃ q0 ∈ db', q0.core = no'.core := ⟨no', hno'mem, rfl⟩
      -- candidates of the tail remain valid against db'
      have hcands' : ∀ m2 ∈ rest, m2 ∈ db' ∧ OrderInv m2 ∧ m2.is_active = true ∧
          m2.agent_id ≠ no'.agent_id := by
        intro m2 hm2
        obtain ⟨h2mem, h2inv, h2act, h2agent⟩ := hcands m2 (List.mem_cons_of_mem m hm2)
        have h2idne_no : m2.id ≠ no.id := by
          intro h2id
          have : m2 = r0 :=
            List.inj_on_of_nodup_map hnodup h2mem hr0mem (by rw [h2id, hr0id])
          rw [this] at h2agent
          exact h2agent hr0agent
        have h2idne_m : m2.id ≠ m.id := by
          intro h2id
          have hmm : m.id ∈ rest.map Order.id := by
            rw [← h2id]
            exact List.mem_map_of_mem _ hm2
          rw [List.map_cons, List.nodup_cons] at hcnodup
          exact hcnodup.1 hmm
        refine ⟨?_, h2inv, h2act, by rw [hno'agent]; exact h2agent⟩
        rw [hdb']
        apply mem_saveOrder_of_ne
        · apply mem_saveOrder_of_ne _ _ _ h2mem
          rw [hno'id]
          exact h2idne_no
        · rw [hm'id]
          exact h2idne_m
      have hcnodup' : (rest.map Order.id).Nodup := by
        rw [List.map_cons, List.nodup_cons] at hcnodup
        exact hcnodup.2
      have hsync' : no'.filled_quantity + (rem - trade) = no'.quantity := by
        rw [hno'f, hno'q]
        linarith
      have hres_eq : execute_matches_go db no rem (m :: rest) acc =
          execute_matches_go db' no' (rem - trade) rest (acc ++ [tx]) := by
        rw [execute_matches_go_cons db no rem m rest acc hstop]
      have hIH := ih db' no' (rem - trade) (acc ++ [tx]) hdb'inv hnodup' hrow' hcands'
        hcnodup' (by rw [hno'q]; exact hq) (by rw [hno'f]; linarith) hsync'
      rw [hres_eq]
      obtain ⟨ih1, ih2, ih3, ih4, ih5⟩ := hIH
      refine ⟨ih1, by rw [ih2]; exact hcore2, ?_, ?_, ?_⟩
      · -- untouched rows survive
        intro r hr hrno hrcands
        apply ih3
        · rw [hdb']
          apply mem_saveOrder_of_ne
          · apply mem_saveOrder_of_ne _ _ _ hr
            rw [hno'id]
            exact hrno
          · rw [hm'id]
            exact hrcands m (List.mem_cons_self m rest)
        · rw [hno'id]
          exact hrno
        · intro m2 hm2
          exact hrcands m2 (List.mem_cons_of_mem m hm2)
      · -- provenance of result rows
        intro r' hr'
        rcases ih4 r' hr' with h1 | h1 | ⟨m2, hm2, h2⟩
        · rcases mem_saveOrder_cases _ _ _ h1 with h2 | h2
          · rcases mem_saveOrder_cases _ _ _ h2 with h3 | h3
            · exact Or.inl h3
            · rw [h3]
              exact Or.inr (Or.inl hno'id)
          · rw [h2]
            exact Or.inr (Or.inr ⟨m, List.mem_cons_self m rest, hm'id⟩)
        · rw [hno'id] at h1
          exact Or.inr (Or.inl h1)
        · exact Or.inr (Or.inr ⟨m2, List.mem_cons_of_mem m hm2, h2⟩)
      · -- FILLED dichotomy
        intro _
        by_cases hzero : rem - trade ≤ 0
        · -- the incoming order was exhausted by the head candidate
          left
          have hres : execute_matches_go db' no' (rem - trade) rest (acc ++ [tx]) =
              ⟨db', no', acc ++ [tx]⟩ :=
            execute_matches_go_stop _ _ _ _ _ (Or.inl hzero)
          rw [hres]
          refine ⟨no', hno'mem, hno'id, ?_⟩
          have hfull : no.filled_quantity + trade = no.quantity := by
            have : trade = rem := le_antisymm htradele2 (by linarith)
            rw [this]
            exact hsync
          rw [hno', update_status_status]
          show derivedStatus (no.filled_quantity + trade) no.quantity = OrderStatus.FILLED
          unfold derivedStatus
          rw [if_neg (by linarith), if_neg (by rw [hfull]; exact lt_irrefl _)]
        · -- the head candidate was filled, recurse
          have htradem : trade = m.remaining_quantity := by
            have : ¬ rem ≤ m.remaining_quantity := by
              intro hh
              have : trade = rem := min_eq_left hh
              linarith
            exact min_eq_right (by linarith)
          have hm'filled : m'.status = OrderStatus.FILLED := by
            rw [hm', update_status_status]
            show derivedStatus (m.filled_quantity + trade) m.quantity = OrderStatus.FILLED
            unfold derivedStatus
            have hmq : m.filled_quantity + trade = m.quantity := by
              rw [htradem]
              unfold Order.remaining_quantity
              ring
            rw [if_neg (by have := hminv.2.1; linarith),
              if_neg (by rw [hmq]; exact lt_irrefl _)]
          rcases ih5 (by linarith) with h1 | h1
          · left
            obtain ⟨r, hr, hrid, hrst⟩ := h1
            exact ⟨r, hr, by rw [hrid, hno'id], hrst⟩
          · right
            intro m2 hm2
            rcases List.mem_cons.mp hm2 with h2 | h2
            · -- the head candidate's row survives the recursion untouched
              refine ⟨m', ?_, by rw [hm'id, h2], hm'filled⟩
              apply ih3
              · rw [hdb']
                apply mem_saveOrder_self
                refine ⟨m, ?_, hm'id.symm⟩
                apply mem_saveOrder_of_ne _ _ _ hmmem
                rw [hno'id]
                exact hmid_ne
              · rw [hm'id, hno'id]
                exact hmid_ne
              · intro m3 hm3
                rw [hm'id]
                intro hmm
                rw [List.map_cons, List.nodup_cons] at hcnodup
                exact hcnodup.1 (hmm ▸ List.mem_map_of_mem Order.id hm3)
            · exact h1 m2 h2

/-- With unique ids, a member row is what its id lookup returns. -/
theorem rowById_of_mem_nodup (db : List Order) (r : Order) (hr : r ∈ db)
    (hnodup : (db.map Order.id).Nodup) : rowById db r.id = some r := by
  induction db with
  | nil => simp at hr
  | cons a rest ih =>
    rw [List.map_cons, List.nodup_cons] at hnodup
    rcases List.mem_cons.mp hr with h1 | h1
    · unfold rowById
      rw [h1, List.find?_cons_of_pos _ (by simp)]
    · by_cases hid : a.id = r.id
      · exfalso
        apply hnodup.1
        rw [hid]
        exact List.mem_map_of_mem _ h1
      · unfold rowById at *
        rw [List.find?_cons_of_neg _ (by simp; exact hid)]
        exact ih h1 hnodup.2

/-- What an id lookup returns is a member carrying that id. -/
theorem rowById_mem (db : List Order) (i : Nat) (r : Order)
    (h : rowById db i = some r) : r ∈ db ∧ r.id = i := by
  refine ⟨List.mem_of_find?_eq_some h, ?_⟩
  have := List.find?_some h
  simpa using this

/-- A row core-identical to the incoming order turns any compatible
pairing, in either orientation, into candidate membership. -/
theorem compat_candOk_of_core (o z y : Order) (hz : z.core = o.core)
    (hy_act : y.is_active = true) (h : compatPair z y ∨ compatPair y z) :
    candOk o y = true := by
  have htype : z.order_type = o.order_type := ((core_eq_iff _ _).mp hz).2.2.2.1
  rcases h with h | h
  · have hbuy : o.order_type = .BUY := by rw [← htype]; exact h.2.1
    rw [candOk_buy o y hbuy]
    exact ⟨hy_act, (compat_core z o y y hz rfl).mp h⟩
  · have hsell : o.order_type = .SELL := by rw [← htype]; exact h.2.2.1
    rw [candOk_sell o y hsell]
    exact ⟨hy_act, (compat_core y y z o rfl hz).mp h⟩

/-- One unfolding of the sweep when the stale guard passes. -/
theorem sweepOrders_cons_active (db : List Order) (acc : List Transaction)
    (o : Order) (rest : List Order)
    (h : (o.is_active && decide (0 < o.remaining_quantity)) = true) :
    sweepOrders db acc (o :: rest) =
      if (find_matching_orders db o).isEmpty then sweepOrders db acc rest
      else sweepOrders (execute_matches db o (find_matching_orders db o)).db
        (acc ++ (execute_matches db o (find_matching_orders db o)).txs) rest := by
  conv_lhs => unfold sweepOrders
  rw [if_pos h]

/-- The facts carried through the `match_orders` sweep: rows stay
well-formed, immutable columns never change, and — the pairing invariant —
any two active mutually compatible rows must both still await their stale
iteration, so that at the end of the sweep no compatible active pair
remains. -/
theorem sweepOrders_facts :
    ∀ (stales : List Order) (db : List Order) (acc : List Transaction),
    (∀ r ∈ db, OrderInv r) →
    ((db.map Order.id).Nodup) →
    (∀ o ∈ stales, o.is_active = true ∧ OrderInv o ∧ ∃ r0 ∈ db, r0.core = o.core) →
    (∀ x ∈ db, ∀ y ∈ db, x.is_active = true → y.is_active = true → compatPair x y →
      (x.id ∈ stales.map Order.id ∧ y.id ∈ stales.map Order.id)) →
    (∀ r ∈ (sweepOrders db acc stales).1, OrderInv r) ∧
    ((sweepOrders db acc stales).1.map Order.core = db.map Order.core) ∧
    noCompatPair (sweepOrders db acc stales).1 := by
  intro stales
  induction stales with
  | nil =>
    intro db acc hdbinv hnodup hstales hINV
    refine ⟨hdbinv, rfl, ?_⟩
    intro x hx y hy hxact hyact hcompat
    have := (hINV x hx y hy hxact hyact hcompat).1
    simp at this
  | cons o rest ih =>
    intro db acc hdbinv hnodup hstales hINV
    obtain ⟨hoact, hoinv, r0, hr0mem, hr0core⟩ := hstales o (List.mem_cons_self o rest)
    have hr0id : r0.id = o.id := core_id_eq _ _ hr0core
    have hr0agent : r0.agent_id = o.agent_id := ((core_eq_iff _ _).mp hr0core).2.2.1
    have horem : 1 ≤ o.remaining_quantity := OrderInv_active_remaining o hoinv hoact
    have hguard : (o.is_active && decide (0 < o.remaining_quantity)) = true := by
      rw [hoact]
      simp
      linarith
    rw [sweepOrders_cons_active db acc o rest hguard]
    set cands := find_matching_orders db o with hcands_def
    have hcand_pack : ∀ m ∈ cands, m ∈ db ∧ OrderInv m ∧ m.is_active = true ∧
        m.agent_id ≠ o.agent_id := by
      intro m hm
      obtain ⟨hmdb, hmok⟩ := (mem_find_matching db o m).mp hm
      obtain ⟨_, _, hact, hagent, _, _⟩ := (candOk_iff o m).mp hmok
      exact ⟨hmdb, hdbinv m hmdb, hact, hagent⟩
    by_cases hc : cands.isEmpty
    · rw [if_pos hc]
      have hcnil : cands = [] := List.isEmpty_iff.mp hc
      apply ih db acc hdbinv hnodup
      · intro o2 ho2
        exact hstales o2 (List.mem_cons_of_mem o ho2)
      · intro x hx y hy hxact hyact hcompat
        obtain ⟨hxid, hyid⟩ := hINV x hx y hy hxact hyact hcompat
        have hxne : x.id ≠ o.id := by
          intro hxo
          have hxr0 : x = r0 :=
            List.inj_on_of_nodup_map hnodup hx hr0mem (by rw [hxo, hr0id])
          have : y ∈ cands := by
            rw [hcands_def]
            apply (mem_find_matching db o y).mpr
            refine ⟨hy, ?_⟩
            apply compat_candOk_of_core o x y (by rw [hxr0]; exact hr0core) hyact
            exact Or.inl hcompat
          rw [hcnil] at this
          simp at this
        have hyne : y.id ≠ o.id := by
          intro hyo
          have hyr0 : y = r0 :=
            List.inj_on_of_nodup_map hnodup hy hr0mem (by rw [hyo, hr0id])
          have : x ∈ cands := by
            rw [hcands_def]
            apply (mem_find_matching db o x).mpr
            refine ⟨hx, ?_⟩
            apply compat_candOk_of_core o y x (by rw [hyr0]; exact hr0core) hxact
            exact Or.inr hcompat
          rw [hcnil] at this
          simp at this
        rw [List.map_cons] at hxid hyid
        exact ⟨(List.mem_cons.mp hxid).resolve_left hxne,
          (List.mem_cons.mp hyid).resolve_left hyne⟩
    · rw [if_neg hc]
      -- the head stale order executes against the live table
      have hexec_eq : execute_matches db o cands =
          execute_matches_go db o o.remaining_quantity cands [] := rfl
      have hsync : o.filled_quantity + o.remaining_quantity = o.quantity := by
        unfold Order.remaining_quantity
        ring
      have hfacts := execute_matches_go_facts cands db o o.remaining_quantity []
        hdbinv hnodup ⟨r0, hr0mem, hr0core⟩ hcand_pack
        (find_matching_ids_nodup db o hnodup) hoinv.1 hoinv.2.1 hsync
      rw [← hexec_eq] at hfacts
      obtain ⟨F1, F2, F3, F4, F5⟩ := hfacts
      set res := execute_matches db o cands with hres_def
      have hnodup' : (res.db.map Order.id).Nodup := by
        rw [map_core_eq_map_id res.db db F2]
        exact hnodup
      have hdich := F5 (by linarith)
      -- classification of any result row by id provenance, with its core
      have hclassify : ∀ z ∈ res.db, (z.id = o.id ∧ z.core = o.core) ∨
          (∃ m ∈ cands, z.id = m.id ∧ z.core = m.core) ∨
          (z ∈ db ∧ z.id ≠ o.id ∧ ∀ m ∈ cands, z.id ≠ m.id) := by
        intro z hz
        by_cases hzo : z.id = o.id
        · left
          refine ⟨hzo, ?_⟩
          have h1 : rowById res.db o.id = some z := by
            rw [← hzo]
            exact rowById_of_mem_nodup res.db z hz hnodup'
          have h2 : rowById db o.id = some r0 := by
            rw [← hr0id]
            exact rowById_of_mem_nodup db r0 hr0mem hnodup
          have h3 := rowById_core_eq res.db db F2 o.id
          rw [h1, h2] at h3
          simp at h3
          rw [h3, hr0core]
        · by_cases hzm : ∃ m ∈ cands, z.id = m.id
          · right
            left
            obtain ⟨m, hm, hzmid⟩ := hzm
            refine ⟨m, hm, hzmid, ?_⟩
            have h1 : rowById res.db m.id = some z := by
              rw [← hzmid]
              exact rowById_of_mem_nodup res.db z hz hnodup'
            have h2 : rowById db m.id = some m :=
              rowById_of_mem_nodup db m (hcand_pack m hm).1 hnodup
            have h3 := rowById_core_eq res.db db F2 m.id
            rw [h1, h2] at h3
            simpa using h3
          · right
            right
            push_neg at hzm
            rcases F4 z hz with h | h | h
            · exact ⟨h, hzo, hzm⟩
            · exact absurd h hzo
            · obtain ⟨m, hm, hmid⟩ := h
              exact absurd hmid (hzm m hm)
      have hstales' : ∀ o2 ∈ rest, o2.is_active = true ∧ OrderInv o2 ∧
          ∃ q1 ∈ res.db, q1.core = o2.core := by
        intro o2 ho2
        obtain ⟨h2act, h2inv, q0, hq0mem, hq0core⟩ := hstales o2 (List.mem_cons_of_mem o ho2)
        obtain ⟨q1, hq1mem, hq1core⟩ := core_mem_of_map_core_eq db res.db F2.symm q0 hq0mem
        exact ⟨h2act, h2inv, q1, hq1mem, by rw [hq1core, hq0core]⟩
      have hINV' : ∀ x ∈ res.db, ∀ y ∈ res.db, x.is_active = true → y.is_active = true →
          compatPair x y → (x.id ∈ rest.map Order.id ∧ y.id ∈ rest.map Order.id) := by
        intro x hx y hy hxact hyact hcompat
        rcases hclassify x hx with ⟨hxo, hxcore⟩ | ⟨mx, hmx, hxid, hxcore⟩ | ⟨hxdb, hxo, hxm⟩
        · -- x carries the incoming id: impossible for an active pair
          exfalso
          rcases hdich with ⟨rno, hrno, hrnoid, hrnost⟩ | hall
          · have : x = rno :=
              List.inj_on_of_nodup_map hnodup' hx hrno (by rw [hxo, hrnoid])
            rw [this] at hxact
            rw [Order.is_active, hrnost] at hxact
            simp at hxact
          · rcases hclassify y hy with ⟨hyo, _⟩ | ⟨my, hmy, hyid, _⟩ | ⟨hydb, hyo, hym⟩
            · have : x = y :=
                List.inj_on_of_nodup_map hnodup' hx hy (by rw [hxo, hyo])
              rw [this] at hcompat
              exact hcompat.2.2.2.1 rfl
            · obtain ⟨rm, hrm, hrmid, hrmst⟩ := hall my hmy
              have : y = rm :=
                List.inj_on_of_nodup_map hnodup' hy hrm (by rw [hyid, hrmid])
              rw [this] at hyact
              rw [Order.is_active, hrmst] at hyact
              simp at hyact
            · have : y ∈ cands := by
                rw [hcands_def]
                apply (mem_find_matching db o y).mpr
                refine ⟨hydb, ?_⟩
                apply compat_candOk_of_core o x y hxcore ?_ (Or.inl hcompat)
                exact hyact
              exact (hym _ this) rfl
        · -- x sits on a candidate id
          rcases hdich with ⟨rno, hrno, hrnoid, hrnost⟩ | hall
          · -- incoming row FILLED: relate the pair back to the old table
            rcases hclassify y hy with ⟨hyo, _⟩ | ⟨my, hmy, hyid, hycore⟩ | ⟨hydb, hyo, hym⟩
            · exfalso
              have : y = rno :=
                List.inj_on_of_nodup_map hnodup' hy hrno (by rw [hyo, hrnoid])
              rw [this] at hyact
              rw [Order.is_active, hrnost] at hyact
              simp at hyact
            · -- two candidate rows share the side opposite the incoming order
              exfalso
              have hxt : x.order_type = opposite o.order_type := by
                have := ((core_eq_iff _ _).mp hxcore).2.2.2.1
                rw [this]
                exact ((candOk_iff o mx).mp ((mem_find_matching db o mx).mp hmx).2).2.1
              have hyt : y.order_type = opposite o.order_type := by
                have := ((core_eq_iff _ _).mp hycore).2.2.2.1
                rw [this]
                exact ((candOk_iff o my).mp ((mem_find_matching db o my).mp hmy).2).2.1
              have h1 := hcompat.2.1
              have h2 := hcompat.2.2.1
              rw [hxt] at h1
              rw [hyt] at h2
              rw [h1] at h2
              cases h2
            · -- pair (mx, y) already existed in the old table
              have hmxact : mx.is_active = true := (hcand_pack mx hmx).2.2.1
              have hpair : compatPair mx y :=
                (compat_core x mx y y hxcore rfl).mp hcompat
              obtain ⟨hmxid, hyid2⟩ := hINV mx (hcand_pack mx hmx).1 y hydb hmxact hyact hpair
              have hmxne : mx.id ≠ o.id := by
                intro hh
                have : mx = r0 := List.inj_on_of_nodup_map hnodup
                  (hcand_pack mx hmx).1 hr0mem (by rw [hh, hr0id])
                have hagent := (hcand_pack mx hmx).2.2.2
                rw [this, hr0agent] at hagent
                exact hagent rfl
              rw [List.map_cons] at hmxid hyid2
              refine ⟨?_, (List.mem_cons.mp hyid2).resolve_left hyo⟩
              rw [hxid]
              exact (List.mem_cons.mp hmxid).resolve_left hmxne
          · -- all candidate rows FILLED: x cannot be active
            exfalso
            obtain ⟨rm, hrm, hrmid, hrmst⟩ := hall mx hmx
            have : x = rm :=
              List.inj_on_of_nodup_map hnodup' hx hrm (by rw [hxid, hrmid])
            rw [this] at hxact
            rw [Order.is_active, hrmst] at hxact
            simp at hxact
        · -- x untouched
          rcases hclassify y hy with ⟨hyo, hycore⟩ | ⟨my, hmy, hyid, hycore⟩ | ⟨hydb, hyo, hym⟩
          · exfalso
            rcases hdich with ⟨rno, hrno, hrnoid, hrnost⟩ | hall
            · have : y = rno :=
                List.inj_on_of_nodup_map hnodup' hy hrno (by rw [hyo, hrnoid])
              rw [this] at hyact
              rw [Order.is_active, hrnost] at hyact
              simp at hyact
            · have : x ∈ cands := by
                rw [hcands_def]
                apply (mem_find_matching db o x).mpr
                refine ⟨hxdb, ?_⟩
                exact compat_candOk_of_core o y x hycore hxact (Or.inr hcompat)
              exact (hxm _ this) rfl
          · rcases hdich with ⟨rno, hrno, hrnoid, hrnost⟩ | hall
            · -- pair (x, my) already existed in the old table
              have hmyact : my.is_active = true := (hcand_pack my hmy).2.2.1
              have hpair : compatPair x my :=
                (compat_core x x y my rfl hycore).mp hcompat
              obtain ⟨hxid2, hmyid⟩ := hINV x hxdb my (hcand_pack my hmy).1 hxact hmyact hpair
              have hmyne : my.id ≠ o.id := by
                intro hh
                have : my = r0 := List.inj_on_of_nodup_map hnodup
                  (hcand_pack my hmy).1 hr0mem (by rw [hh, hr0id])
                have hagent := (hcand_pack my hmy).2.2.2
                rw [this, hr0agent] at hagent
                exact hagent rfl
              rw [List.map_cons] at hxid2 hmyid
              refine ⟨(List.mem_cons.mp hxid2).resolve_left hxo, ?_⟩
              rw [hyid]
              exact (List.mem_cons.mp hmyid).resolve_left hmyne
            · exfalso
              obtain ⟨rm, hrm, hrmid, hrmst⟩ := hall my hmy
              have : y = rm :=
                List.inj_on_of_nodup_map hnodup' hy hrm (by rw [hyid, hrmid])
              rw [this] at hyact
              rw [Order.is_active, hrmst] at hyact
              simp at hyact
          · -- both untouched: the pair already existed in the old table
            obtain ⟨hxid2, hyid2⟩ := hINV x hxdb y hydb hxact hyact hcompat
            rw [List.map_cons] at hxid2 hyid2
            exact ⟨(List.mem_cons.mp hxid2).resolve_left hxo,
              (List.mem_cons.mp hyid2).resolve_left hyo⟩
      obtain ⟨I1, I2, I3⟩ := ih res.db (acc ++ res.txs) F1 hnodup' hstales' hINV'
      exact ⟨I1, by rw [I2, F2], I3⟩

/-- One unfolding of the sweep when the stale guard fails. -/
theorem sweepOrders_cons_skip (db : List Order) (acc : List Transaction)
    (o : Order) (rest : List Order)
    (h : ¬ (o.is_active && decide (0 < o.remaining_quantity)) = true) :
    sweepOrders db acc (o :: rest) = sweepOrders db acc rest := by
  conv_lhs => unfold sweepOrders
  rw [if_neg h]

/-- Over a table without compatible active pairs the sweep does nothing:
every candidate query comes back empty. -/
theorem sweepOrders_noop : ∀ (stales db : List Order) (acc : List Transaction),
    (∀ o ∈ stales, o ∈ db) →
    noCompatPair db →
    sweepOrders db acc stales = (db, acc) := by
  intro stales
  induction stales with
  | nil => intro db acc _ _; rfl
  | cons o rest ih =>
    intro db acc hmem hnc
    by_cases hguard : (o.is_active && decide (0 < o.remaining_quantity)) = true
    · rw [sweepOrders_cons_active db acc o rest hguard]
      have hoact : o.is_active = true := by
        have hh : o.is_active = true ∧ decide (0 < o.remaining_quantity) = true := by
          simpa using hguard
        exact hh.1
      have hcnil : (find_matching_orders db o).isEmpty = true := by
        rw [List.isEmpty_iff]
        apply List.eq_nil_iff_forall_not_mem.mpr
        intro c hc
        obtain ⟨hcdb, hok⟩ := (mem_find_matching db o c).mp hc
        cases hot : o.order_type with
        | BUY =>
          have hh := (candOk_buy o c hot).mp hok
          exact hnc o (hmem o (List.mem_cons_self o rest)) c hcdb hoact hh.1 hh.2
        | SELL =>
          have hh := (candOk_sell o c hot).mp hok
          exact hnc c hcdb o (hmem o (List.mem_cons_self o rest)) hh.1 hoact hh.2
      rw [if_pos hcnil]
      exact ih db acc (fun o2 h2 => hmem o2 (List.mem_cons_of_mem _ h2)) hnc
    · rw [sweepOrders_cons_skip db acc o rest hguard]
      exact ih db acc (fun o2 h2 => hmem o2 (List.mem_cons_of_mem _ h2)) hnc

/-- C4: from any well-formed state, one `match_orders` pass leaves no two
active mutually price-compatible orders with distinct owners on the same
item, and a second `match_orders` immediately after is harmless — it
creates no transactions and changes no order's filled quantity or status
(the resulting state is identical). -/
theorem match_orders_idempotent (s : EngineState) (hwf : WellFormed s) :
    noCompatPair (match_orders s).1.orders
  ∧ (match_orders (match_orders s).1).1 = (match_orders s).1
  ∧ (match_orders (match_orders s).1).2 = [] := by
  obtain ⟨hnodup, hinv⟩ := hwf
  have hstales : ∀ o ∈ List.insertionSort createdLE (s.orders.filter Order.is_active),
      o.is_active = true ∧ OrderInv o ∧ ∃ r0 ∈ s.orders, r0.core = o.core := by
    intro o ho
    rw [List.mem_insertionSort, List.mem_filter] at ho
    exact ⟨ho.2, hinv o ho.1, o, ho.1, rfl⟩
  have hINV0 : ∀ x ∈ s.orders, ∀ y ∈ s.orders, x.is_active = true → y.is_active = true →
      compatPair x y →
      (x.id ∈ (List.insertionSort createdLE (s.orders.filter Order.is_active)).map Order.id ∧
       y.id ∈ (List.insertionSort createdLE (s.orders.filter Order.is_active)).map Order.id) := by
    intro x hx y hy hxa hya _
    constructor
    · exact List.mem_map_of_mem _
        ((List.mem_insertionSort createdLE).mpr (List.mem_filter.mpr ⟨hx, hxa⟩))
    · exact List.mem_map_of_mem _
        ((List.mem_insertionSort createdLE).mpr (List.mem_filter.mpr ⟨hy, hya⟩))
  obtain ⟨S1, S2, S3⟩ := sweepOrders_facts
    (List.insertionSort createdLE (s.orders.filter Order.is_active)) s.orders []
    hinv hnodup hstales hINV0
  have hm1orders : (match_orders s).1.orders =
      (sweepOrders s.orders []
        (List.insertionSort createdLE (s.orders.filter Order.is_active))).1 := rfl
  have hnc1 : noCompatPair (match_orders s).1.orders := by
    rw [hm1orders]
    exact S3
  refine ⟨hnc1, ?_, ?_⟩
  · have hnoop := sweepOrders_noop
      (List.insertionSort createdLE ((match_orders s).1.orders.filter Order.is_active))
      (match_orders s).1.orders []
      (fun o2 h2 => by
        rw [List.mem_insertionSort, List.mem_filter] at h2
        exact h2.1)
      hnc1
    show (⟨(sweepOrders (match_orders s).1.orders []
        (List.insertionSort createdLE ((match_orders s).1.orders.filter Order.is_active))).1,
      (match_orders s).1.transactions ++ (sweepOrders (match_orders s).1.orders []
        (List.insertionSort createdLE ((match_orders s).1.orders.filter Order.is_active))).2,
      (match_orders s).1.next_order_id, (match_orders s).1.now⟩ : EngineState) =
      (match_orders s).1
    rw [hnoop]
    simp
  · have hnoop := sweepOrders_noop
      (List.insertionSort createdLE ((match_orders s).1.orders.filter Order.is_active))
      (match_orders s).1.orders []
      (fun o2 h2 => by
        rw [List.mem_insertionSort, List.mem_filter] at h2
        exact h2.1)
      hnc1
    show (sweepOrders (match_orders s).1.orders []
        (List.insertionSort createdLE ((match_orders s).1.orders.filter Order.is_active))).2 = []
    rw [hnoop]

/-- Witness for C4 at a concrete well-formed three-order state. -/
theorem match_orders_idempotent_witness :
    (match_orders (match_orders ⟨[⟨1, 1, "A", .BUY, 10, 5, 0, .PENDING, 1⟩,
        ⟨2, 1, "B", .SELL, 10, 10, 0, .PENDING, 2⟩,
        ⟨3, 1, "C", .BUY, 10, 10, 0, .PENDING, 3⟩], [], 4, 4⟩).1).1 =
      (match_orders ⟨[⟨1, 1, "A", .BUY, 10, 5, 0, .PENDING, 1⟩,
        ⟨2, 1, "B", .SELL, 10, 10, 0, .PENDING, 2⟩,
        ⟨3, 1, "C", .BUY, 10, 10, 0, .PENDING, 3⟩], [], 4, 4⟩).1 :=
  (match_orders_idempotent ⟨[⟨1, 1, "A", .BUY, 10, 5, 0, .PENDING, 1⟩,
    ⟨2, 1, "B", .SELL, 10, 10, 0, .PENDING, 2⟩,
    ⟨3, 1, "C", .BUY, 10, 10, 0, .PENDING, 3⟩], [], 4, 4⟩ (by decide)).2.1

/-- The full state invariant maintained by the engine: a well-formed table
plus the primary-key bound of the id sequence. -/
def StateWF (s : EngineState) : Prop :=
  WellFormed s ∧ ∀ o ∈ s.orders, o.id < s.next_order_id

instance (s : EngineState) : Decidable (StateWF s) := by
  unfold StateWF; infer_instance

/-- The wrapped execution facts needed at both engine entry points: the
result table of `_execute_matches` run on the matcher's own candidate
list keeps every row well-formed and keeps the immutable columns. -/
theorem execute_matches_wf (db : List Order) (no : Order)
    (hdbinv : ∀ r ∈ db, OrderInv r) (hnodup : (db.map Order.id).Nodup)
    (hrow : ∃ r0 ∈ db, r0.core = no.core) (hnoinv : OrderInv no) :
    (∀ r ∈ (execute_matches db no (find_matching_orders db no)).db, OrderInv r) ∧
    ((execute_matches db no (find_matching_orders db no)).db.map Order.core =
      db.map Order.core) := by
  have hcand_pack : ∀ m ∈ find_matching_orders db no, m ∈ db ∧ OrderInv m ∧
      m.is_active = true ∧ m.agent_id ≠ no.agent_id := by
    intro m hm
    obtain ⟨hmdb, hmok⟩ := (mem_find_matching db no m).mp hm
    obtain ⟨_, _, hact, hagent, _, _⟩ := (candOk_iff no m).mp hmok
    exact ⟨hmdb, hdbinv m hmdb, hact, hagent⟩
  have hsync : no.filled_quantity + no.remaining_quantity = no.quantity := by
    unfold Order.remaining_quantity
    ring
  have hfacts := execute_matches_go_facts (find_matching_orders db no) db no
    no.remaining_quantity [] hdbinv hnodup hrow hcand_pack
    (find_matching_ids_nodup db no hnodup) hnoinv.1 hnoinv.2.1 hsync
  exact ⟨hfacts.1, hfacts.2.1⟩

/-- Every reachable engine state is well-formed with bounded ids. -/
theorem reachable_StateWF (s : EngineState) (h : Reachable s) : StateWF s := by
  induction h with
  | init => exact ⟨⟨List.nodup_nil, fun o ho => absurd ho (List.not_mem_nil o)⟩,
      fun o ho => absurd ho (List.not_mem_nil o)⟩
  | submit s req hre hq hwf =>
    obtain ⟨⟨hnodup, hinv⟩, hbound⟩ := hwf
    set o : Order := ⟨s.next_order_id, req.item, req.agent_id, req.order_type, req.price,
      req.quantity, 0, .PENDING, s.now⟩ with ho
    have hoinv : OrderInv o := by
      refine ⟨hq, le_refl 0, by show (0 : ℤ) ≤ req.quantity; linarith, Or.inr (Or.inr ?_)⟩
      show OrderStatus.PENDING = derivedStatus 0 req.quantity
      unfold derivedStatus
      rw [if_pos rfl]
    have hdbinv : ∀ r ∈ s.orders ++ [o], OrderInv r := by
      intro r hr
      rcases List.mem_append.mp hr with h1 | h1
      · exact hinv r h1
      · simp at h1
        rw [h1]
        exact hoinv
    have hdbnodup : ((s.orders ++ [o]).map Order.id).Nodup := by
      rw [List.map_append]
      apply List.Nodup.append hnodup (by simp)
      intro i hi hi2
      simp at hi2
      obtain ⟨r, hr, hrid⟩ := List.mem_map.mp hi
      have hlt := hbound r hr
      rw [hrid, hi2] at hlt
      exact absurd hlt (lt_irrefl _)
    have hdbbound : ∀ r ∈ s.orders ++ [o], r.id < s.next_order_id + 1 := by
      intro r hr
      rcases List.mem_append.mp hr with h1 | h1
      · exact Nat.lt_succ_of_lt (hbound r h1)
      · simp at h1
        rw [h1]
        exact Nat.lt_succ_self _
    unfold submit_order
    by_cases hc : (find_matching_orders (s.orders ++ [o]) o).isEmpty
    · rw [if_pos hc]
      exact ⟨⟨hdbnodup, hdbinv⟩, hdbbound⟩
    · rw [if_neg hc]
      obtain ⟨E1, E2⟩ := execute_matches_wf (s.orders ++ [o]) o hdbinv hdbnodup
        ⟨o, List.mem_append.mpr (Or.inr (by simp)), rfl⟩ hoinv
      refine ⟨⟨?_, E1⟩, ?_⟩
      · rw [map_core_eq_map_id _ _ E2]
        exact hdbnodup
      · intro r hr
        have hid : r.id ∈ (s.orders ++ [o]).map Order.id := by
          rw [← map_core_eq_map_id _ _ E2]
          exact List.mem_map_of_mem _ hr
        obtain ⟨r2, hr2, hr2id⟩ := List.mem_map.mp hid
        rw [← hr2id]
        exact hdbbound r2 hr2
  | sweep s hre hwf =>
    obtain ⟨⟨hnodup, hinv⟩, hbound⟩ := hwf
    have hstales : ∀ o ∈ List.insertionSort createdLE (s.orders.filter Order.is_active),
        o.is_active = true ∧ OrderInv o ∧ ∃ r0 ∈ s.orders, r0.core = o.core := by
      intro o ho
      rw [List.mem_insertionSort, List.mem_filter] at ho
      exact ⟨ho.2, hinv o ho.1, o, ho.1, rfl⟩
    have hINV0 : ∀ x ∈ s.orders, ∀ y ∈ s.orders, x.is_active = true → y.is_active = true →
        compatPair x y →
        (x.id ∈ (List.insertionSort createdLE (s.orders.filter Order.is_active)).map Order.id ∧
        y.id ∈ (List.insertionSort createdLE (s.orders.filter Order.is_active)).map Order.id) := by
      intro x hx y hy hxa hya _
      constructor
      · exact List.mem_map_of_mem _
          ((List.mem_insertionSort createdLE).mpr (List.mem_filter.mpr ⟨hx, hxa⟩))
      · exact List.mem_map_of_mem _
          ((List.mem_insertionSort createdLE).mpr (List.mem_filter.mpr ⟨hy, hya⟩))
    obtain ⟨S1, S2, _⟩ := sweepOrders_facts
      (List.insertionSort createdLE (s.orders.filter Order.is_active)) s.orders []
      hinv hnodup hstales hINV0
    refine ⟨⟨?_, S1⟩, ?_⟩
    · show ((sweepOrders s.orders [] _).1.map Order.id).Nodup
      rw [map_core_eq_map_id _ _ S2]
      exact hnodup
    · intro r hr
      have hid : r.id ∈ s.orders.map Order.id := by
        rw [← map_core_eq_map_id _ _ S2]
        exact List.mem_map_of_mem _ hr
      obtain ⟨r2, hr2, hr2id⟩ := List.mem_map.mp hid
      rw [← hr2id]
      exact hbound r2 hr2
  | cancel s oid aid hre hwf =>
    obtain ⟨⟨hnodup, hinv⟩, hbound⟩ := hwf
    cases hb : (cancel_order s oid aid).2 with
    | false =>
      rw [cancel_order_false_state s oid aid hb]
      exact ⟨⟨hnodup, hinv⟩, hbound⟩
    | true =>
      obtain ⟨o, homem, hid, hag, hact, hstate⟩ := cancel_order_true_state s oid aid hb
      rw [hstate]
      refine ⟨⟨?_, ?_⟩, ?_⟩
      · show ((saveOrder s.orders _).map Order.id).Nodup
        rw [saveOrder_map_id]
        exact hnodup
      · intro r hr
        rcases mem_saveOrder_cases _ _ _ hr with h1 | h1
        · exact hinv r h1
        · rw [h1]
          obtain ⟨h1, h2, h3, _⟩ := hinv o homem
          exact ⟨h1, h2, h3, Or.inl rfl⟩
      · intro r hr
        rcases mem_saveOrder_cases _ _ _ hr with h1 | h1
        · exact hbound r h1
        · rw [h1]
          exact hbound o homem

/-- The three claim-shaped characterisations of a non-terminal status. -/
theorem OrderInv_status_iffs (o : Order) (hinv : OrderInv o)
    (hnc : o.status ≠ .CANCELLED) (hne : o.status ≠ .EXPIRED) :
    (o.status = .PENDING ↔ o.filled_quantity = 0) ∧
    (o.status = .PARTIAL ↔ (0 < o.filled_quantity ∧ o.filled_quantity < o.quantity)) ∧
    (o.status = .FILLED ↔ o.filled_quantity = o.quantity) := by
  obtain ⟨hq, hf0, hfq, hst⟩ := hinv
  rcases hst with h | h | h
  · exact absurd h hnc
  · exact absurd h hne
  · unfold derivedStatus at h
    by_cases h0 : o.filled_quantity = 0
    · rw [if_pos h0] at h
      rw [h]
      refine ⟨by simp [h0], ?_, ?_⟩
      · constructor
        · intro hh; cases hh
        · rintro ⟨hh, _⟩; rw [h0] at hh; exact absurd hh (lt_irrefl 0)
      · constructor
        · intro hh; cases hh
        · intro hh; rw [h0] at hh; exfalso; rw [← hh] at hq; exact absurd hq (by norm_num)
    · rw [if_neg h0] at h
      by_cases hlt : o.filled_quantity < o.quantity
      · rw [if_pos hlt] at h
        rw [h]
        refine ⟨?_, ?_, ?_⟩
        · constructor
          · intro hh; cases hh
          · intro hh; exact absurd hh h0
        · simp only [true_iff]
          exact ⟨lt_of_le_of_ne hf0 (fun hh => h0 hh.symm), hlt⟩
        · constructor
          · intro hh; cases hh
          · intro hh; rw [hh] at hlt; exact absurd hlt (lt_irrefl _)
      · rw [if_neg hlt] at h
        rw [h]
        have heq : o.filled_quantity = o.quantity := le_antisymm hfq (le_of_not_lt hlt)
        refine ⟨?_, ?_, by simp [heq]⟩
        · constructor
          · intro hh; cases hh
          · intro hh; exact absurd hh h0
        · constructor
          · intro hh; cases hh
          · rintro ⟨_, hh⟩; exact absurd hh hlt

/-- C2 fails on the code as stated: the engine accepts a zero-quantity
submission (no validation, see C5), and the stored order then has
filled == quantity == 0 with status PENDING, not FILLED, so the claimed
status characterisation is violated at a state produced by the engine's
own operations. -/
theorem order_status_zero_quantity_counterexample :
    ∃ o ∈ (submit_order ⟨[], [], 0, 0⟩ ⟨1, "A", .BUY, 5, 0⟩).1.orders,
      o.filled_quantity = o.quantity ∧ o.status = .PENDING ∧ o.status ≠ .FILLED := by
  refine ⟨⟨0, 1, "A", .BUY, 5, 0, 0, .PENDING, 0⟩, ?_, rfl, rfl, by decide⟩
  norm_num [submit_order, find_matching_orders, candOk, Order.is_active, opposite]

/-- C2 amended: in every state reachable through the engine's operations
with orders submitted as the agents build them (positive quantity), every
order satisfies 0 ≤ filled ≤ quantity, and unless its status is the
explicitly set terminal CANCELLED or EXPIRED, the status is PENDING
exactly when filled = 0, PARTIAL exactly when 0 < filled < quantity, and
FILLED exactly when filled = quantity. -/
theorem order_status_invariant (s : EngineState) (h : Reachable s) :
    ∀ o ∈ s.orders, (0 ≤ o.filled_quantity ∧ o.filled_quantity ≤ o.quantity) ∧
      (o.status ≠ .CANCELLED → o.status ≠ .EXPIRED →
        ((o.status = .PENDING ↔ o.filled_quantity = 0) ∧
         (o.status = .PARTIAL ↔ (0 < o.filled_quantity ∧ o.filled_quantity < o.quantity)) ∧
         (o.status = .FILLED ↔ o.filled_quantity = o.quantity))) := by
  obtain ⟨⟨_, hinv⟩, _⟩ := reachable_StateWF s h
  intro o ho
  have hoinv := hinv o ho
  exact ⟨⟨hoinv.2.1, hoinv.2.2.1⟩, fun hnc hne => OrderInv_status_iffs o hoinv hnc hne⟩

/-- Witness for C2's amended theorem: the pending order created by one
concrete submission satisfies the characterisation. -/
theorem order_status_invariant_witness :
    ((0 : ℤ) ≤ (⟨0, 1, "A", .BUY, 5, 3, 0, .PENDING, 0⟩ : Order).filled_quantity ∧
      (⟨0, 1, "A", .BUY, 5, 3, 0, .PENDING, 0⟩ : Order).filled_quantity ≤
        (⟨0, 1, "A", .BUY, 5, 3, 0, .PENDING, 0⟩ : Order).quantity) ∧
    ((⟨0, 1, "A", .BUY, 5, 3, 0, .PENDING, 0⟩ : Order).status ≠ .CANCELLED →
      (⟨0, 1, "A", .BUY, 5, 3, 0, .PENDING, 0⟩ : Order).status ≠ .EXPIRED →
      (((⟨0, 1, "A", .BUY, 5, 3, 0, .PENDING, 0⟩ : Order).status = .PENDING ↔
          (⟨0, 1, "A", .BUY, 5, 3, 0, .PENDING, 0⟩ : Order).filled_quantity = 0) ∧
       ((⟨0, 1, "A", .BUY, 5, 3, 0, .PENDING, 0⟩ : Order).status = .PARTIAL ↔
          (0 < (⟨0, 1, "A", .BUY, 5, 3, 0, .PENDING, 0⟩ : Order).filled_quantity ∧
           (⟨0, 1, "A", .BUY, 5, 3, 0, .PENDING, 0⟩ : Order).filled_quantity <
             (⟨0, 1, "A", .BUY, 5, 3, 0, .PENDING, 0⟩ : Order).quantity)) ∧
       ((⟨0, 1, "A", .BUY, 5, 3, 0, .PENDING, 0⟩ : Order).status = .FILLED ↔
          (⟨0, 1, "A", .BUY, 5, 3, 0, .PENDING, 0⟩ : Order).filled_quantity =
            (⟨0, 1, "A", .BUY, 5, 3, 0, .PENDING, 0⟩ : Order).quantity))) := by
  have hs : Reachable (submit_order ⟨[], [], 0, 0⟩ ⟨1, "A", .BUY, 5, 3⟩).1 :=
    Reachable.submit ⟨[], [], 0, 0⟩ ⟨1, "A", .BUY, 5, 3⟩ Reachable.init (by norm_num)
  apply order_status_invariant _ hs
  norm_num [submit_order, find_matching_orders, candOk, Order.is_active, opposite]

end EnchMarket
